import Mathlib

/-!
# Verification of the CCSDS OSI APP/DL/PHYS simulation pipeline

Shallow embedding of the byte-level codec stages of the repository:

* `l7_sender.py` — CRC-32C, Space-Packet primary header, packet builder
* `l7_receiver.py` — MIC detection/verification (`process_packet`)
* `sync_coding_v0_epy_block_0.py` — TM Transfer-Frame framer
* `sync_coding_v0_epy_block_1.py` — CCSDS 15-bit LFSR randomizer
* `default_epy_block_4.py` — RS(255,223) interleaved encoder over GF(256)
* `default_epy_block_6.py` — SPP length tagger
* `sync_coding_v0_epy_block_3.py` — convolutional encoder (K=7, r=1/2)
* `new_rx_chain_v0_epy_block_0.py` — soft Viterbi decoder

Bytes are modelled as `Nat` (the Python sources read them from `bytes` /
`uint8` buffers, so values are below 256; where a claim needs it this is an
explicit hypothesis).  Soft values are modelled as `ℚ`: all floats that occur
in the claims (±1 inputs, squared-distance branch metrics, `1e12` sentinel)
are integers far below 2^53, on which binary64 arithmetic is exact.
-/

namespace CCSDS

/-! ## CRC-32C (Castagnoli) — `l7_sender.py` lines 57-69 (same in receiver) -/

/-- One conditional-shift step of the table generator:
`crc = (crc >> 1) ^ POLY if (crc & 1) else (crc >> 1)`. -/
def crcStep (c : Nat) : Nat :=
  if c % 2 = 1 then (c >>> 1) ^^^ 0x82F63B78 else c >>> 1

/-- `_crc32c_table[i]`: eight `crcStep` iterations on the index. -/
def crcTable (i : Nat) : Nat := crcStep^[8] i

/-- One byte of the CRC loop:
`crc = _crc32c_table[(crc ^ b) & 0xFF] ^ (crc >> 8)`. -/
def crcUpd (c b : Nat) : Nat := crcTable ((c ^^^ b) &&& 0xFF) ^^^ (c >>> 8)

/-- The byte loop of `crc32c` starting from register value `c`. -/
def crcFold (c : Nat) : List Nat → Nat
  | [] => c
  | b :: bs => crcFold (crcUpd c b) bs

/-- `crc32c(data)` with the default `init = 0`:
register starts at `0 ^ 0xFFFFFFFF`, final xor `0xFFFFFFFF`. -/
def crc32c (data : List Nat) : Nat :=
  crcFold 0xFFFFFFFF data ^^^ 0xFFFFFFFF

/-- Big-endian 4-byte encoding, `struct.pack(">I", x)`. -/
def beU32 (x : Nat) : List Nat :=
  [(x >>> 24) &&& 0xFF, (x >>> 16) &&& 0xFF, (x >>> 8) &&& 0xFF, x &&& 0xFF]

/-- Big-endian integer of a byte list, `int.from_bytes(bs, "big")`. -/
def beInt (bs : List Nat) : Nat := bs.foldl (fun acc b => acc * 256 + b) 0

/-! ## Space-Packet sender — `l7_sender.py` -/

/-- `pack_primary_header` (lines 75-87): three big-endian 16-bit words.
The source's asserts (field ranges) hold at every use below. -/
def packPrimaryHeader (version pktType shf apid seqFlags seqCount len : Nat) :
    List Nat :=
  let w1 := (version <<< 13) ||| (pktType <<< 12) ||| (shf <<< 11) ||| apid
  let w2 := (seqFlags <<< 14) ||| seqCount
  let w3 := len
  [(w1 >>> 8) &&& 0xFF, w1 &&& 0xFF, (w2 >>> 8) &&& 0xFF, w2 &&& 0xFF,
   (w3 >>> 8) &&& 0xFF, w3 &&& 0xFF]

/-- `pad_or_truncate_to_len` (lines 141-149). -/
def padOrTruncate (user : List Nat) (desired : Nat) (pad : Nat) : List Nat :=
  if user.length = desired then user
  else if user.length < desired then
    user ++ List.replicate (desired - user.length) pad
  else user.take desired

/-- `build_packet_for_profile` (lines 175-228), for a profile whose body is
already evaluated to `body` bytes and whose secondary header evaluated to
`secHdr` bytes (mode `ns8` yields 8 clock bytes, passed in as a parameter
because they come from `time.time_ns()`).  `none` models the `ValueError`
raised when `data_field_len` is too small for `sec_hdr` plus MIC. -/
def buildPacket (apid : Nat) (typeTC : Bool) (secHdr body : List Nat)
    (padByte : Nat) (useMic : Bool) (dataFieldLen seq : Nat) :
    Option (List Nat) :=
  let micLen := if useMic then 4 else 0
  if dataFieldLen < secHdr.length + micLen then none
  else
    let desired := dataFieldLen - secHdr.length - micLen
    let padded := padOrTruncate body desired padByte
    let user := if useMic then padded ++ beU32 (crc32c padded) else padded
    let shf := if 0 < secHdr.length then 1 else 0
    let primLen := secHdr.length + user.length - 1
    let hdr := packPrimaryHeader 0 (if typeTC then 1 else 0) shf apid 3
      (seq &&& 0x3FFF) primLen
    some (hdr ++ secHdr ++ user)

/-- ASCII bytes of the profile text `"0.21/data/"`. -/
def cfdpText : List Nat := [48, 46, 50, 49, 47, 100, 97, 116, 97, 47]

/-! ## Space-Packet receiver — `l7_receiver.py` `process_packet` -/

/-- The receiver's `--mic` mode. -/
inductive MicMode
  | off
  | mon
  | auto
  deriving DecidableEq

/-- The `mic_state` strings of `process_packet`. -/
inductive MicState
  | ok
  | bad
  | nomic
  | short
  | moff
  deriving DecidableEq

/-- Effective secondary-header length (lines 211-221): `sec_len` is the
configured mode length when `shf == 1` (0 otherwise), and is silently reset
to 0 when it exceeds the data field. -/
def effSecLen (shf secLenCfg : Nat) (dataField : List Nat) : Nat :=
  let s := if shf = 1 then secLenCfg else 0
  if dataField.length < s then 0 else s

/-- MIC detection/verification of `process_packet` (lines 219-252): returns
the `mic_state` and the reported user bytes.  `micExpect` is the profile's
`use_mic` lookup (only populated by the `auto` sec-mode path, `none` when the
APID is unknown or no config is given). -/
def micCheck (micMode : MicMode) (micExpect : Option Bool)
    (shf secLenCfg : Nat) (dataField : List Nat) : MicState × List Nat :=
  let secLen := effSecLen shf secLenCfg dataField
  let uam := dataField.drop secLen
  if micMode = MicMode.off then (MicState.moff, uam)
  else if 4 ≤ uam.length then
    let candidateUser := uam.take (uam.length - 4)
    let candidateMic := beInt (uam.drop (uam.length - 4))
    if candidateMic = crc32c candidateUser then (MicState.ok, candidateUser)
    else if micMode = MicMode.mon ∨ micExpect = some true then
      (MicState.bad, uam)
    else (MicState.nomic, uam)
  else if micMode = MicMode.mon ∨ micExpect = some true then
    (MicState.short, uam)
  else (MicState.nomic, uam)

/-! ## Randomizer — `sync_coding_v0_epy_block_1.py` -/

/-- `_step_lfsr` (lines 41-45): 15-bit register, feedback bit14 xor bit13
entering the LSB. -/
def lfsrStep (s : Nat) : Nat :=
  ((s <<< 1) &&& 0x7FFF) ||| (((s >>> 14) ^^^ (s >>> 13)) &&& 1)

/-- `_next_pn_byte` (lines 47-53): eight PN bits MSB-first, each the current
register MSB before stepping.  Returns (pn byte, new register). -/
def nextPnByte (s : Nat) : Nat × Nat :=
  (List.range 8).foldl
    (fun p _ => ((((p.1 <<< 1) ||| ((p.2 >>> 14) &&& 1)) &&& 0xFF), lfsrStep p.2))
    (0, s)

/-- The per-frame byte loop of `general_work` (line 123):
`out[i] = inp[i] ^ self._next_pn_byte()`. -/
def randAux (s : Nat) : List Nat → List Nat
  | [] => []
  | b :: bs =>
    let p := nextPnByte s
    (b ^^^ p.1) :: randAux p.2 bs

/-- One whole frame through the randomizer with per-frame restart: the block
stores `self.seed = int(seed) & 0x7FFF` and `_reset_pn` reloads it at each
frame-start tag (lines 142-144). -/
def randomizeFrame (seed : Nat) (frame : List Nat) : List Nat :=
  randAux (seed &&& 0x7FFF) frame

/-! ## SPP length tagger — `default_epy_block_6.py` -/

/-- Total packet length from the buffered primary header (lines 38-39):
`6 + (((buf[4] << 8) | buf[5]) + 1)`. -/
def spTotalLen (buf : List Nat) : Nat :=
  6 + (((buf.getD 4 0) <<< 8) ||| buf.getD 5 0) + 1

/-- Persistent tagger state: input buffer and absolute output index. -/
structure TaggerSt where
  buf : List Nat
  absOut : Nat
  deriving DecidableEq, Repr

/-- The `while True` loop of the tagger's `general_work` (lines 33-58):
emits `(offset, total_len)` tags and copies whole packets while a complete
packet is buffered and fits in the remaining output space.  Note the source
adds the tag (line 45) *before* the space check (line 49), so a packet that
does not fit still leaves its tag behind.  Returns
(output bytes, tags, remaining buffer, new absolute index). -/
def taggerLoop (buf : List Nat) (absOut space : Nat) :
    List Nat × List (Nat × Nat) × List Nat × Nat :=
  if h6 : buf.length < 6 then ([], [], buf, absOut)
  else
    let tl := spTotalLen buf
    if hlen : buf.length < tl then ([], [], buf, absOut)
    else if space < tl then ([], [(absOut, tl)], buf, absOut)
    else
      let rest := taggerLoop (buf.drop tl) (absOut + tl) (space - tl)
      (buf.take tl ++ rest.1, (absOut, tl) :: rest.2.1, rest.2.2.1, rest.2.2.2)
  termination_by buf.length
  decreasing_by
    have h7 : 0 < spTotalLen buf := by
      simp only [spTotalLen]; omega
    simp only [List.length_drop]
    omega

/-- One `general_work` call of the tagger (lines 22-69): ingest `inp`, run
the packet loop, then spill whatever still fits into the output, untagged
(lines 60-66).  Returns (output bytes, tags, new state). -/
def taggerWork (st : TaggerSt) (inp : List Nat) (space : Nat) :
    List Nat × List (Nat × Nat) × TaggerSt :=
  let buf := st.buf ++ inp
  let r := taggerLoop buf st.absOut space
  let spill := min (space - r.1.length) r.2.2.1.length
  (r.1 ++ r.2.2.1.take spill, r.2.1,
    ⟨r.2.2.1.drop spill, r.2.2.2 + spill⟩)

/-! ## TM Transfer-Frame framer — `sync_coding_v0_epy_block_0.py` -/

/-- Framer configuration (constructor lines 31-58). -/
structure FrCfg where
  scid : Nat
  vcid : Nat
  ocf : Bool
  frameLen : Nat
  includeFecf : Bool
  idleFill : Nat
  emitIdle : Bool

/-- `tfdf_len = frame_len - header_len - fecf_len`. -/
def FrCfg.tfdfLen (c : FrCfg) : Nat :=
  c.frameLen - 6 - (if c.includeFecf then 2 else 0)

/-- Mutable framer state: the two counters, the queue of complete Space
Packets, and the packet currently being segmented as (data, pos). -/
structure FrSt where
  mc : Nat
  vc : Nat
  queue : List (List Nat)
  cur : Option (List Nat × Nat)

/-- Python slice assignment `buf[i:i+len(seg)] = seg` (in bounds at every
use below). -/
def splice (buf : List Nat) (i : Nat) (seg : List Nat) : List Nat :=
  buf.take i ++ seg ++ buf.drop (i + seg.length)

/-- `_crc16_ibm` (lines 74-84): one shift step. -/
def crc16Step (crc : Nat) : Nat :=
  if crc &&& 0x8000 ≠ 0 then ((crc <<< 1) ^^^ 0x1021) &&& 0xFFFF
  else (crc <<< 1) &&& 0xFFFF

/-- `_crc16_ibm`: per byte, xor `(b << 8) & 0xFFFF` into the register then
run eight shift steps. -/
def crc16Ibm (data : List Nat) : Nat :=
  data.foldl (fun crc b => crc16Step^[8] (crc ^^^ ((b <<< 8) &&& 0xFFFF))) 0xFFFF

/-- `_pack_primary_header` (lines 87-113); `general_work` always calls it
with `sync_flag = sec_hdr_flag = pkt_order_flag = seg_len_id = 0`, so the
data-field status is just the masked FHP. -/
def packTmHeader (c : FrCfg) (mc vc fhp : Nat) : List Nat :=
  let word0 := ((c.scid &&& 0x3FF) <<< 4) ||| ((c.vcid &&& 0x7) <<< 1) |||
    (if c.ocf then 1 else 0)
  let dfs := fhp &&& 0x7FF
  [(word0 >>> 8) &&& 0xFF, word0 &&& 0xFF, mc &&& 0xFF, vc &&& 0xFF,
   (dfs >>> 8) &&& 0xFF, dfs &&& 0xFF]

/-- Step 1 of the frame loop (lines 173-182): place the continuation of a
split packet at the head of the TFDF.  Returns (tfdf, cursor, cur). -/
def placeCont (tfdfLen : Nat) (tfdf : List Nat)
    (cur : Option (List Nat × Nat)) : List Nat × Nat × Option (List Nat × Nat) :=
  match cur with
  | none => (tfdf, 0, none)
  | some (data, pos) =>
    let rem := data.length - pos
    let tk := min rem tfdfLen
    let tfdf1 := splice tfdf 0 ((data.drop pos).take tk)
    let pos1 := pos + tk
    (tfdf1, tk, if data.length ≤ pos1 then none else some (data, pos1))

/-- Step 2 of the frame loop (lines 185-203): place as many new packets as
fit, recording each header start; split the first one that does not fit.
Returns (queue, cursor, tfdf, header starts, cur). -/
def placeLoop (tfdfLen : Nat) :
    List (List Nat) → Nat → List Nat → List Nat → Option (List Nat × Nat) →
    List (List Nat) × Nat × List Nat × List Nat × Option (List Nat × Nat)
  | [], cursor, tfdf, hs, cur => ([], cursor, tfdf, hs, cur)
  | pkt :: rest, cursor, tfdf, hs, cur =>
    if tfdfLen ≤ cursor then (pkt :: rest, cursor, tfdf, hs, cur)
    else
      let hs1 := hs ++ [cursor]
      let room := tfdfLen - cursor
      if pkt.length ≤ room then
        placeLoop tfdfLen rest (cursor + pkt.length) (splice tfdf cursor pkt)
          hs1 cur
      else
        (rest, tfdfLen, splice tfdf cursor (pkt.take room), hs1,
          some (pkt, room))

/-- Result of emitting one frame. -/
structure FrameOut where
  frame : List Nat
  st : FrSt
  hs : List Nat
  onlyIdle : Bool
  cursor : Nat
  fhp : Nat

/-- Steps 1 and 2 of the frame-assembly loop (lines 167-203): the TFDF
buffer after placing the continuation and the queued packets.  Returns what
`general_work` holds at line 204: (queue, cursor, tfdf, header starts, cur). -/
def framePlace (cfg : FrCfg) (st : FrSt) :
    List (List Nat) × Nat × List Nat × List Nat × Option (List Nat × Nat) :=
  let s1 := placeCont cfg.tfdfLen (List.replicate cfg.tfdfLen 0) st.cur
  placeLoop cfg.tfdfLen st.queue s1.2.1 s1.1 [] s1.2.2

/-- Step 3 condition (line 208): Only-Idle-Data emission. -/
def frameOnlyIdle (cfg : FrCfg) (st : FrSt) : Bool :=
  decide ((framePlace cfg st).2.1 < cfg.tfdfLen) && cfg.emitIdle &&
    (framePlace cfg st).2.2.2.1.isEmpty && (framePlace cfg st).2.2.2.2.isNone &&
    (framePlace cfg st).1.isEmpty

/-- The TFDF after step 3 (lines 205-213): idle fill when Only-Idle-Data,
otherwise the zeros of the fresh bytearray remain. -/
def frameTfdf (cfg : FrCfg) (st : FrSt) : List Nat :=
  if frameOnlyIdle cfg st then
    splice (framePlace cfg st).2.2.1 (framePlace cfg st).2.1
      (List.replicate (cfg.tfdfLen - (framePlace cfg st).2.1) cfg.idleFill)
  else (framePlace cfg st).2.2.1

/-- Step 4 (lines 215-219): the First Header Pointer. -/
def frameFhp (cfg : FrCfg) (st : FrSt) : Nat :=
  if frameOnlyIdle cfg st then 0x7FE
  else (framePlace cfg st).2.2.2.1.headD 0x7FF

/-- One iteration of the frame-assembly loop of `general_work`
(lines 167-242): build the TFDF from continuation bytes, queued packets and
optional idle fill, compute the FHP, pack the header, optionally append the
FECF, and advance both counters mod 256.  This is the frame the block writes
out and tags (a frame is emitted whenever the loop body runs, even when no
data was placed; the `break` at line 241 only stops *further* frames). -/
def buildFrame (cfg : FrCfg) (st : FrSt) : FrameOut :=
  let fw := packTmHeader cfg st.mc st.vc (frameFhp cfg st) ++ frameTfdf cfg st
  let frame :=
    if cfg.includeFecf then
      fw ++ [(crc16Ibm fw >>> 8) &&& 0xFF, crc16Ibm fw &&& 0xFF]
    else fw
  ⟨frame,
    ⟨(st.mc + 1) &&& 0xFF, (st.vc + 1) &&& 0xFF, (framePlace cfg st).1,
      (framePlace cfg st).2.2.2.2⟩,
    (framePlace cfg st).2.2.2.1, frameOnlyIdle cfg st, (framePlace cfg st).2.1,
    frameFhp cfg st⟩

/-! ## Convolutional encoder — `sync_coding_v0_epy_block_3.py` -/

/-- Body of the encoder's `_parity_u32` loop (lines 49-55), Kernighan
popcount parity: `x &= x - 1` clears the lowest set bit.  The loop runs at
most `x` times (`x &&& (x-1) < x` for `x ≠ 0`), so structural fuel equal to
the starting value runs it to completion. -/
def parityFuel : Nat → Nat → Nat
  | 0, _ => 0
  | fuel + 1, x => if x = 0 then 0 else 1 ^^^ parityFuel fuel (x &&& (x - 1))

/-- `_parity_u32` of the encoder. -/
def parityTx (x : Nat) : Nat := parityFuel x x

/-- `_bytes_to_bits` with `msb_first=True` (lines 57-64). -/
def bitsOfByteMSB (b : Nat) : List Nat :=
  (List.range 8).map fun k => (b >>> (7 - k)) &&& 1

/-- Bit stream of a byte frame, MSB-first. -/
def bytesToBits (bs : List Nat) : List Nat :=
  (bs.map bitsOfByteMSB).flatten

/-- `_bits_to_bytes` core: pack eight bits MSB-first into one byte; the
input is already padded to a multiple of eight. -/
def packBitsMSB : List Nat → List Nat
  | b0 :: b1 :: b2 :: b3 :: b4 :: b5 :: b6 :: b7 :: rest =>
    ((b0 <<< 7) + (b1 <<< 6) + (b2 <<< 5) + (b3 <<< 4) + (b4 <<< 3) +
      (b5 <<< 2) + (b6 <<< 1) + b7) :: packBitsMSB rest
  | _ => []

/-- `_bits_to_bytes` with `msb_first=True` (lines 66-77): zero-pad to a
multiple of eight, then pack. -/
def bitsToBytesMSB (bits : List Nat) : List Nat :=
  packBitsMSB (bits ++ List.replicate ((8 - bits.length % 8) % 8) 0)

/-- `_conv_encode_bits` (lines 79-95), state threaded explicitly:
`state = ((state << 1) | (b & 1)) & 0x7F`, then parities against the
K=7 generators 0o171 and 0o133. -/
def convEncodeBits (state : Nat) : List Nat → List Nat
  | [] => []
  | b :: bs =>
    let st1 := ((state <<< 1) ||| (b &&& 1)) &&& 0x7F
    parityTx (st1 &&& 0o171) :: parityTx (st1 &&& 0o133) :: convEncodeBits st1 bs

/-- One frame through the encoder with `reset_each_frame=True`: the shift
register starts at 0 (`_process_frames_to_outbuf`, lines 110-132). -/
def convEncodeFrame (frame : List Nat) : List Nat :=
  bitsToBytesMSB (convEncodeBits 0 (bytesToBits frame))

/-! ## Soft Viterbi decoder — `new_rx_chain_v0_epy_block_0.py`

Soft values are ℚ; all float arithmetic the claims exercise (±1 inputs,
squared distances, the `1e12` sentinel) is exact integer binary64
arithmetic, which ℚ reproduces. -/

/-- The decoder's `_parity_u32` (lines 60-66): fold-down xor then the
`0x6996` nibble-parity lookup. -/
def parityRx (x : Nat) : Nat :=
  let v1 := x ^^^ (x >>> 16)
  let v2 := v1 ^^^ (v1 >>> 8)
  let v3 := v2 ^^^ (v2 >>> 4)
  (0x6996 >>> (v3 &&& 0xF)) &&& 1

/-- `_build_trellis` next state (line 74): `((s << 1) | u) & 0x7F`, then
`>> 1` and `& 0x3F`. -/
def vitNs (s u : Nat) : Nat :=
  ((((s <<< 1) ||| u) &&& 0x7F) >>> 1) &&& 0x3F

/-- `_build_trellis` expected output pair (lines 75-76). -/
def vitOb (s u : Nat) : Nat × Nat :=
  let full := ((s <<< 1) ||| u) &&& 0x7F
  (parityRx (full &&& 0o171), parityRx (full &&& 0o133))

/-- `BIG = 1e12`. -/
def vitBIG : ℚ := 1000000000000

/-- `_euclid_pair` (lines 82-92): expected bit 0 ↦ target +1, bit 1 ↦ −1,
sum of squared errors. -/
def euclidPair (r0 r1 : ℚ) (e0 e1 : Nat) : ℚ :=
  let t0 : ℚ := if e0 = 0 then 1 else -1
  let t1 : ℚ := if e1 = 0 then 1 else -1
  (r0 - t0) * (r0 - t0) + (r1 - t1) * (r1 - t1)

/-- One branch update (lines 144-160): overwrite the cell of `pm_new`,
`prev_state` and `decided_bit` at the branch's next state when the candidate
metric is strictly smaller. -/
def vitUpd (acc : List ℚ × List Nat × List Nat) (s u : Nat) (c : ℚ) :
    List ℚ × List Nat × List Nat :=
  let ns := vitNs s u
  if c < acc.1.getD ns vitBIG then
    (acc.1.set ns c, acc.2.1.set ns s, acc.2.2.set ns u)
  else acc

/-- The per-state body of the symbol loop (lines 133-160), pm1 mode:
skip unreachable states (`cost >= BIG`), then try branches u=0 and u=1 in
that order. -/
def vitState (r0 r1 : ℚ) (pm : List ℚ)
    (acc : List ℚ × List Nat × List Nat) (s : Nat) :
    List ℚ × List Nat × List Nat :=
  let cost := pm.getD s vitBIG
  if vitBIG ≤ cost then acc
  else
    let e0 := vitOb s 0
    let acc1 := vitUpd acc s 0 (cost + euclidPair r0 r1 e0.1 e0.2)
    let e1 := vitOb s 1
    vitUpd acc1 s 1 (cost + euclidPair r0 r1 e1.1 e1.2)

/-- One trellis symbol (lines 129-162): `pm_new` starts at BIG everywhere,
states are visited in increasing order.  Returns the new path metrics and
the (prev_state, decided_bit) rows for this symbol. -/
def vitSymbol (pm : List ℚ) (r0 r1 : ℚ) : List ℚ × List Nat × List Nat :=
  (List.range 64).foldl (vitState r0 r1 pm)
    (List.replicate 64 vitBIG, List.replicate 64 0, List.replicate 64 0)

/-- The forward pass over all symbol pairs; a trailing odd soft value is
discarded (lines 109-111).  Returns the final path metrics and the rows in
time order. -/
def vitForward (pm : List ℚ) : List ℚ → List ℚ × List (List Nat × List Nat)
  | r0 :: r1 :: rest =>
    let s := vitSymbol pm r0 r1
    let tl := vitForward s.1 rest
    (tl.1, (s.2.1, s.2.2) :: tl.2)
  | _ => (pm, [])

/-- `np.argmin`: index of the first minimum. -/
def argminAux : List ℚ → Nat → Nat → ℚ → Nat
  | [], _, bi, _ => bi
  | x :: xs, i, bi, bv =>
    if x < bv then argminAux xs (i + 1) i x else argminAux xs (i + 1) bi bv

/-- `np.argmin` over the final path metrics (line 165). -/
def argminQ : List ℚ → Nat
  | [] => 0
  | x :: xs => argminAux xs 1 0 x

/-- Traceback (lines 166-171): walk the rows backwards from `endSt`,
collecting decided bits in time order. -/
def traceback (rows : List (List Nat × List Nat)) (endSt : Nat) : List Nat :=
  (rows.reverse.foldl
    (fun (acc : Nat × List Nat) row =>
      (row.1.getD acc.1 0, row.2.getD acc.1 0 :: acc.2))
    (endSt, [])).2

/-- `_viterbi_soft_decode` (lines 106-180) with `reset_each_frame=True`:
path metrics all BIG except state 0, forward pass, traceback from the
argmin state, MSB-first repack. -/
def viterbiDecode (soft : List ℚ) : List Nat :=
  let pm0 : List ℚ := (List.replicate 64 vitBIG).set 0 0
  let fw := vitForward pm0 soft
  bitsToBytesMSB (traceback fw.2 (argminQ fw.1))

/-- The claim's soft mapping of a coded bit: `1 - 2*b`. -/
def softOfBit (b : Nat) : ℚ := 1 - 2 * (b : ℚ)

/-! ## RS(255,223) interleaved encoder — `default_epy_block_4.py` -/

/-- One step of the `_gf_init` loop (lines 42-54): `x <<= 1; if x & 0x100:
x ^= 0x11D`. -/
def gfStep (x : Nat) : Nat :=
  let y := x <<< 1
  if y &&& 0x100 ≠ 0 then y ^^^ 0x11D else y

/-- The `_gf_init` loop: 255 iterations recording `gf_exp[i] = x` and
`gf_log[x] = i` (log entries start at −1), then stepping `x` from 1.
Returns (exp table, log table, final x). -/
def gfInitFold : List Nat × List Int × Nat :=
  (List.range 255).foldl
    (fun acc i => (acc.1 ++ [acc.2.2], acc.2.1.set acc.2.2 (i : Int), gfStep acc.2.2))
    ([], List.replicate 256 (-1), 1)

/-- `gf_exp[0:255]`. -/
def gfExpList : List Nat := gfInitFold.1

/-- `gf_log`. -/
def gfLogList : List Int := gfInitFold.2.1

/-- The duplicated 512-entry `gf_exp` table (lines 53-54):
`gf_exp[255:510] = gf_exp[:255]`, `gf_exp[510:512] = gf_exp[:2]`. -/
def gfExpT (i : Nat) : Nat :=
  if i < 255 then gfExpList.getD i 0
  else if i < 510 then gfExpList.getD (i - 255) 0
  else gfExpList.getD (i - 510) 0

/-- `_gf_mul` (lines 60-63).  For the nonzero bytes reachable in this
pipeline the log entries are non-negative, so the `Int.toNat` coercion of
the index sum is exact. -/
def gfMul (a b : Nat) : Nat :=
  if a = 0 ∨ b = 0 then 0
  else gfExpT (gfLogList.getD a (-1) + gfLogList.getD b (-1)).toNat

/-- `_poly_mul` (lines 86-93), parametrized by the field multiplication:
accumulate `r[i+j] ^= mul(p[i], q[j])` over a zero buffer, skipping zero
coefficients. -/
def polyMul (mul : Nat → Nat → Nat) (p q : List Nat) : List Nat :=
  (List.range p.length).foldl
    (fun r i =>
      let a := p.getD i 0
      if a = 0 then r
      else
        (List.range q.length).foldl
          (fun r2 j =>
            let b := q.getD j 0
            if b = 0 then r2
            else r2.set (i + j) (r2.getD (i + j) 0 ^^^ mul a b))
          r)
    (List.replicate (p.length + q.length - 1) 0)

/-- `_rs_generator` (lines 78-84): `g = Π_{i=1..32} (x − α^i)` built by
repeated `_poly_mul` with `[1, gf_exp[i]]`. -/
def rsGenerator (mul : Nat → Nat → Nat) (exp : Nat → Nat) : List Nat :=
  (List.range 32).foldl (fun g k => polyMul mul g [1, exp (k + 1)]) [1]

/-- `self.gen`. -/
def rsGen : List Nat := rsGenerator gfMul (fun i => gfExpList.getD i 0)

/-- One data byte of `_rs_encode_223_255` (lines 100-108): the 32-byte
remainder register shifts left with a zero fed in, then (unless the leading
coefficient `coef` is zero) each cell absorbs `gf_mul(gen[j+1], coef)`; the
cell updates are independent, so the in-place loop is a map. -/
def rsEncodeStep (mul : Nat → Nat → Nat) (gen : List Nat)
    (rem : List Nat) (d : Nat) : List Nat :=
  let coef := d ^^^ rem.headD 0
  let rem1 := rem.tail ++ [0]
  if coef = 0 then rem1
  else (List.range 32).map fun j => rem1.getD j 0 ^^^ mul (gen.getD (j + 1) 0) coef

/-- The byte loop of `_rs_encode_223_255` over a zeroed register. -/
def rsParityLoop (mul : Nat → Nat → Nat) (gen : List Nat)
    (data : List Nat) : List Nat :=
  data.foldl (rsEncodeStep mul gen) (List.replicate 32 0)

/-- `_rs_encode_223_255` (lines 95-109); `none` models the `ValueError`
for a message that is not exactly 223 bytes. -/
def rsEncode223 (data : List Nat) : Option (List Nat) :=
  if data.length = 223 then some (rsParityLoop gfMul rsGen data) else none

/-- Python `l[j::I]`: every `I`-th element starting at the head of the
already-shifted list. -/
def strideTake (I : Nat) : List α → List α
  | [] => []
  | x :: xs => x :: strideTake I (xs.drop (I - 1))
  termination_by l => l.length
  decreasing_by
    simp only [List.length_drop, List.length_cons]
    omega

/-- Branch `j` of `general_work` (lines 139-146): `tm[j::I]`, padded with
zeros up to 223 if short (the source's `np.pad`; unreachable for frames of
length `223*I`, where the stride is exactly 223 long). -/
def rsBranch (I : Nat) (tm : List Nat) (j : Nat) : List Nat :=
  let b := strideTake I (tm.drop j)
  if b.length = 223 then b else b ++ List.replicate (223 - b.length) 0

/-- Codeword `j` (lines 148-153): `branch ++ parity`. -/
def rsCodeword (I : Nat) (tm : List Nat) (j : Nat) : Option (List Nat) :=
  (rsEncode223 (rsBranch I tm j)).map fun par => rsBranch I tm j ++ par

/-- Exception propagation of a list of fallible results. -/
def optList : List (Option α) → Option (List α)
  | [] => some []
  | x :: xs =>
    match x, optList xs with
    | some v, some vs => some (v :: vs)
    | _, _ => none

/-- The RS stage body of `general_work` (lines 135-171) on one carved TM
frame: encode the `I` round-robin branches, then multiplex the codewords
symbol-major (`out[n*I + j] = codewords[j][n]`). -/
def rsWork (I : Nat) (tm : List Nat) : Option (List Nat) :=
  (optList ((List.range I).map (rsCodeword I tm))).map fun cws =>
    ((List.range 255).map fun n => cws.map fun cw => cw.getD n 0).flatten

/-! ### Spec-side Reed–Solomon definitions (for the refinement claim C2)

These two definitions follow the wording of the spec, not the block's
windowed loop: `sub_j[n] = frame[n*I + j]`, and the parity is the remainder
of `x^32·msg(x)` under polynomial long division by the monic generator
`g(x)`, cancelling one leading coefficient per step on the full dividend. -/

/-- Spec sub-sequence: `sub_j[n] = frame[n·I + j]`, `n ∈ [0, 223)`. -/
def subSeq (I : Nat) (tm : List Nat) (j : Nat) : List Nat :=
  (List.range 223).map fun n => tm.getD (n * I + j) 0

/-- Polynomial long-division remainder (coefficients MSB first) by the
degree-32 monic polynomial `g`: while more than 32 coefficients remain,
subtract `lead(p)·g` aligned at the top and drop the leading coefficient. -/
def gfPolyRem (mul : Nat → Nat → Nat) (g : List Nat) (p : List Nat) : List Nat :=
  if hp : p.length ≤ 32 then p
  else
    let c := p.headD 0
    let scaled := g.map (fun gc => mul c gc) ++ List.replicate (p.length - g.length) 0
    gfPolyRem mul g (List.zipWith (fun a b => a ^^^ b) p scaled).tail
  termination_by p.length
  decreasing_by
    simp only [List.length_tail, List.length_zipWith]
    omega

/-- Spec parity of a message: remainder of `x^32 · msg(x)` divided by the
generator polynomial. -/
def rsParitySpec (msg : List Nat) : List Nat :=
  gfPolyRem gfMul rsGen (msg ++ List.replicate 32 0)

/-- Spec codeword: `msg ‖ parity` (255 bytes). -/
def rsCodewordSpec (I : Nat) (tm : List Nat) (j : Nat) : List Nat :=
  subSeq I tm j ++ rsParitySpec (subSeq I tm j)

/-! ## Auxiliary definitions used by the statements and proofs -/

/-- The GF(2)-linear part of one CRC byte step: the xor-difference of two
register values propagates through `crcUpd` as `crcM`. -/
def crcM (d : Nat) : Nat := crcTable (d &&& 0xFF) ^^^ (d >>> 8)

/-- A byte string is one well-formed Space Packet when its length agrees
with its primary-header packet-length field. -/
def wellFormedSP (p : List Nat) : Prop := p.length = spTotalLen p

instance wellFormedSP_dec (p : List Nat) : Decidable (wellFormedSP p) :=
  inferInstanceAs (Decidable (p.length = spTotalLen p))

/-- Expected length tags for a sequence of packets starting at absolute
output index `a`: one tag at the first byte of each packet, valued at the
packet's total length. -/
def spTags (a : Nat) : List (List Nat) → List (Nat × Nat)
  | [] => []
  | p :: ps => (a, p.length) :: spTags (a + p.length) ps

/-- The unsent remainder of the continuation packet, if any. -/
def contRem : Option (List Nat × Nat) → List Nat
  | none => []
  | some (data, pos) => data.drop pos

/-- The stream of packet bytes available to the framer: the unsent rest of
the continuation packet followed by the queued packets. -/
def framerAvail (st : FrSt) : List Nat :=
  contRem st.cur ++ st.queue.flatten

/-! # Theorems -/

/-! ## CRC-32C lemmas -/

theorem shiftRight_xor_distrib (a b i : Nat) :
    (a ^^^ b) >>> i = (a >>> i) ^^^ (b >>> i) := by
  apply Nat.eq_of_testBit_eq
  intro k
  simp [Nat.testBit_shiftRight, Nat.testBit_xor]

theorem and_xor_distrib (a b m : Nat) :
    (a ^^^ b) &&& m = (a &&& m) ^^^ (b &&& m) := by
  apply Nat.eq_of_testBit_eq
  intro k
  simp only [Nat.testBit_and, Nat.testBit_xor]
  cases a.testBit k <;> cases b.testBit k <;> cases m.testBit k <;> simp

theorem xor_mod_two (a b : Nat) : (a ^^^ b) % 2 = a % 2 ^^^ b % 2 := by
  rw [← Nat.and_one_is_mod, ← Nat.and_one_is_mod, ← Nat.and_one_is_mod,
    and_xor_distrib]

theorem xor_left_comm (a b c : Nat) : a ^^^ (b ^^^ c) = b ^^^ (a ^^^ c) := by
  rw [← Nat.xor_assoc, Nat.xor_comm a b, Nat.xor_assoc]

theorem crcStep_xor (a b : Nat) :
    crcStep (a ^^^ b) = crcStep a ^^^ crcStep b := by
  have hm := xor_mod_two a b
  rcases Nat.mod_two_eq_zero_or_one a with ha | ha <;>
    rcases Nat.mod_two_eq_zero_or_one b with hb | hb <;>
      simp only [crcStep, hm, ha, hb] <;> norm_num <;>
        simp [shiftRight_xor_distrib, Nat.xor_assoc, Nat.xor_comm,
          xor_left_comm]

theorem crcStep_iterate_xor (n a b : Nat) :
    crcStep^[n] (a ^^^ b) = crcStep^[n] a ^^^ crcStep^[n] b := by
  induction n generalizing a b with
  | zero => rfl
  | succ n ih => simp [Function.iterate_succ_apply, crcStep_xor, ih]

theorem crcTable_xor (a b : Nat) :
    crcTable (a ^^^ b) = crcTable a ^^^ crcTable b :=
  crcStep_iterate_xor 8 a b

theorem xor_xor_cancel (c1 c2 b : Nat) : (c1 ^^^ b) ^^^ (c2 ^^^ b) = c1 ^^^ c2 := by
  rw [Nat.xor_assoc, Nat.xor_comm b (c2 ^^^ b), Nat.xor_assoc,
    Nat.xor_self, Nat.xor_zero]

theorem crcUpd_diff (c1 c2 b : Nat) :
    crcUpd c1 b ^^^ crcUpd c2 b = crcM (c1 ^^^ c2) := by
  simp only [crcUpd, crcM]
  have h1 : crcTable ((c1 ^^^ b) &&& 0xFF) ^^^ crcTable ((c2 ^^^ b) &&& 0xFF)
      = crcTable ((c1 ^^^ c2) &&& 0xFF) := by
    rw [← crcTable_xor, ← and_xor_distrib, xor_xor_cancel]
  have h2 : (c1 >>> 8) ^^^ (c2 >>> 8) = (c1 ^^^ c2) >>> 8 :=
    (shiftRight_xor_distrib c1 c2 8).symm
  calc (crcTable ((c1 ^^^ b) &&& 0xFF) ^^^ c1 >>> 8)
        ^^^ (crcTable ((c2 ^^^ b) &&& 0xFF) ^^^ c2 >>> 8)
      = (crcTable ((c1 ^^^ b) &&& 0xFF) ^^^ crcTable ((c2 ^^^ b) &&& 0xFF))
        ^^^ ((c1 >>> 8) ^^^ (c2 >>> 8)) := by
        simp [Nat.xor_assoc, Nat.xor_comm, xor_left_comm]
    _ = crcTable ((c1 ^^^ c2) &&& 0xFF) ^^^ (c1 ^^^ c2) >>> 8 := by
        rw [h1, h2]

theorem crcUpd_diff_byte (c b1 b2 : Nat) :
    crcUpd c b1 ^^^ crcUpd c b2 = crcTable ((b1 ^^^ b2) &&& 0xFF) := by
  simp only [crcUpd]
  rw [xor_xor_cancel, ← crcTable_xor, ← and_xor_distrib]
  have h : (c ^^^ b1) ^^^ (c ^^^ b2) = b1 ^^^ b2 := by
    rw [Nat.xor_comm c b1, Nat.xor_comm c b2, xor_xor_cancel]
  rw [h]

set_option maxRecDepth 4000 in
theorem crcTable_large : ∀ l, l < 256 → l ≠ 0 → 2 ^ 24 ≤ crcTable l := by decide

set_option maxRecDepth 4000 in
theorem crcTable_bound : ∀ l, l < 256 → crcTable l < 2 ^ 32 := by decide

theorem and_255_lt (d : Nat) : d &&& 0xFF < 256 :=
  Nat.lt_succ_of_le (Nat.and_le_right)

theorem crcM_ne_zero (d : Nat) (hd : d ≠ 0) (hlt : d < 2 ^ 32) : crcM d ≠ 0 := by
  intro h0
  have heq : crcTable (d &&& 0xFF) = d >>> 8 := Nat.xor_eq_zero.mp h0
  by_cases hl : d &&& 0xFF = 0
  · rw [hl] at heq
    have h00 : crcTable 0 = 0 := by decide
    rw [h00] at heq
    have hmod : d % 256 = 0 := by
      have := Nat.and_pow_two_sub_one_eq_mod d 8
      norm_num at this
      omega
    have hdiv : d / 256 = 0 := by
      have := Nat.shiftRight_eq_div_pow d 8
      norm_num at this
      omega
    exact hd (by omega)
  · have hge : 2 ^ 24 ≤ crcTable (d &&& 0xFF) :=
      crcTable_large _ (and_255_lt d) hl
    rw [heq] at hge
    have : d >>> 8 = d / 2 ^ 8 := Nat.shiftRight_eq_div_pow d 8
    rw [this] at hge
    have := (Nat.le_div_iff_mul_le (by norm_num : 0 < 2 ^ 8)).mp hge
    norm_num at this hlt
    omega

theorem crcUpd_lt (c b : Nat) (hc : c < 2 ^ 32) : crcUpd c b < 2 ^ 32 := by
  apply Nat.xor_lt_two_pow
  · exact crcTable_bound _ (and_255_lt _)
  · calc c >>> 8 = c / 2 ^ 8 := Nat.shiftRight_eq_div_pow c 8
      _ ≤ c := Nat.div_le_self c (2 ^ 8)
      _ < 2 ^ 32 := hc

theorem crcUpd_ne (c1 c2 b : Nat) (h1 : c1 < 2 ^ 32) (h2 : c2 < 2 ^ 32)
    (hne : c1 ≠ c2) : crcUpd c1 b ≠ crcUpd c2 b := by
  intro h
  have hz : crcUpd c1 b ^^^ crcUpd c2 b = 0 := by rw [h, Nat.xor_self]
  rw [crcUpd_diff] at hz
  exact crcM_ne_zero (c1 ^^^ c2) (fun hc => hne (Nat.xor_eq_zero.mp hc))
    (Nat.xor_lt_two_pow h1 h2) hz

theorem crcFold_lt : ∀ (bs : List Nat) (c : Nat), c < 2 ^ 32 →
    crcFold c bs < 2 ^ 32 := by
  intro bs
  induction bs with
  | nil => intro c hc; exact hc
  | cons b bs ih => intro c hc; exact ih _ (crcUpd_lt c b hc)

theorem crcFold_ne : ∀ (bs : List Nat) (c1 c2 : Nat), c1 < 2 ^ 32 →
    c2 < 2 ^ 32 → c1 ≠ c2 → crcFold c1 bs ≠ crcFold c2 bs := by
  intro bs
  induction bs with
  | nil => intro c1 c2 _ _ hne; exact hne
  | cons b bs ih =>
    intro c1 c2 h1 h2 hne
    exact ih _ _ (crcUpd_lt c1 b h1) (crcUpd_lt c2 b h2) (crcUpd_ne c1 c2 b h1 h2 hne)

theorem crcFold_append (c : Nat) (l1 l2 : List Nat) :
    crcFold c (l1 ++ l2) = crcFold (crcFold c l1) l2 := by
  induction l1 generalizing c with
  | nil => rfl
  | cons b bs ih => simp [crcFold, ih]

theorem crcUpd_flip_ne (c b j : Nat) (hj : j < 8) :
    crcUpd c b ≠ crcUpd c (b ^^^ (1 <<< j)) := by
  intro h
  have hz : crcUpd c b ^^^ crcUpd c (b ^^^ (1 <<< j)) = 0 := by
    rw [h, Nat.xor_self]
  rw [crcUpd_diff_byte] at hz
  have hb : b ^^^ (b ^^^ (1 <<< j)) = 1 <<< j := by
    rw [← Nat.xor_assoc, Nat.xor_self, Nat.zero_xor]
  rw [hb] at hz
  have hlt : 1 <<< j < 256 := by
    rw [Nat.one_shiftLeft]
    calc 2 ^ j ≤ 2 ^ 7 := Nat.pow_le_pow_right (by norm_num) (by omega)
      _ < 256 := by norm_num
  have hmask : (1 <<< j) &&& 0xFF = 1 <<< j := by
    have := Nat.and_pow_two_sub_one_eq_mod (1 <<< j) 8
    norm_num at this ⊢
    rw [this]
    exact Nat.mod_eq_of_lt hlt
  rw [hmask] at hz
  have := crcTable_large (1 <<< j) hlt (by
    rw [Nat.one_shiftLeft]
    exact (pow_pos (by norm_num : (0:Nat) < 2) j).ne')
  omega

/-- Flipping bit `j` of the byte at index `i` changes the CRC-32C. -/
theorem crc32c_flip_ne (U : List Nat) (i j : Nat) (hi : i < U.length)
    (hj : j < 8) :
    crc32c (U.set i (U.getD i 0 ^^^ (1 <<< j))) ≠ crc32c U := by
  have hsplit : U = U.take i ++ U.getD i 0 :: U.drop (i + 1) := by
    conv_lhs => rw [← List.take_append_drop i U]
    congr 1
    rw [List.getD_eq_getElem U 0 hi]
    exact List.drop_eq_getElem_cons hi
  have hset : U.set i (U.getD i 0 ^^^ (1 <<< j))
      = U.take i ++ (U.getD i 0 ^^^ (1 <<< j)) :: U.drop (i + 1) := by
    rw [List.set_eq_take_cons_drop _ hi]
  simp only [crc32c]
  intro h
  have hfold : crcFold 0xFFFFFFFF (U.set i (U.getD i 0 ^^^ (1 <<< j)))
      = crcFold 0xFFFFFFFF U := by
    have h1 := congrArg (fun z => z ^^^ 0xFFFFFFFF) h
    simpa [Nat.xor_cancel_right] using h1
  rw [hset] at hfold
  conv_rhs at hfold => rw [hsplit]
  rw [crcFold_append, crcFold_append] at hfold
  simp only [crcFold] at hfold
  set c := crcFold 0xFFFFFFFF (U.take i) with hc
  have hclt : c < 2 ^ 32 := crcFold_lt _ _ (by norm_num)
  have hne := crcUpd_flip_ne c (U.getD i 0) j hj
  have hupdne : crcUpd c (U.getD i 0 ^^^ (1 <<< j)) ≠ crcUpd c (U.getD i 0) :=
    fun hh => hne hh.symm
  exact crcFold_ne _ _ _ (crcUpd_lt _ _ hclt) (crcUpd_lt _ _ hclt) hupdne hfold

/-! ## Sender lemmas and claims C7, C3 -/

theorem packPrimaryHeader_length (v t s a f c l : Nat) :
    (packPrimaryHeader v t s a f c l).length = 6 := rfl

theorem padOrTruncate_length (u : List Nat) (d p : Nat) :
    (padOrTruncate u d p).length = d := by
  simp only [padOrTruncate]
  split_ifs with h1 h2
  · exact h1
  · simp only [List.length_append, List.length_replicate]
    omega
  · simp only [List.length_take]
    omega

/-- Closed form of `build_packet_for_profile` with MIC enabled, when
`data_field_len` accommodates the secondary header and the MIC. -/
theorem buildPacket_mic_eq (apid : Nat) (typeTC : Bool) (secHdr body : List Nat)
    (padByte dfl seq : Nat) (h : secHdr.length + 4 ≤ dfl) :
    buildPacket apid typeTC secHdr body padByte true dfl seq
      = some (packPrimaryHeader 0 (if typeTC then 1 else 0)
            (if 0 < secHdr.length then 1 else 0) apid 3 (seq &&& 0x3FFF)
            (secHdr.length + (dfl - secHdr.length - 4 + 4) - 1)
          ++ secHdr
          ++ (padOrTruncate body (dfl - secHdr.length - 4) padByte
            ++ beU32 (crc32c (padOrTruncate body (dfl - secHdr.length - 4) padByte)))) := by
  simp only [buildPacket, if_true]
  rw [if_neg (by omega)]
  simp only [List.length_append, padOrTruncate_length, beU32, List.length_cons,
    List.length_nil]

theorem drop_header_sec (hdr secHdr u : List Nat) (h : hdr.length = 6) :
    (hdr ++ secHdr ++ u).drop (6 + secHdr.length) = u := by
  have h2 : (hdr ++ secHdr).length = 6 + secHdr.length := by simp [h]
  rw [List.drop_left' h2]

/-- C7: for every profile with `use_mic`, the bytes after the secondary
header are the padded user followed by the big-endian CRC-32C of that padded
user; and flipping any single bit of any byte sequence changes its CRC-32C. -/
theorem C7_mic_closure :
    (∀ (apid : Nat) (typeTC : Bool) (secHdr body : List Nat)
      (padByte dfl seq : Nat) (pkt : List Nat),
      buildPacket apid typeTC secHdr body padByte true dfl seq = some pkt →
      pkt.drop (6 + secHdr.length)
        = padOrTruncate body (dfl - secHdr.length - 4) padByte
          ++ beU32 (crc32c (padOrTruncate body (dfl - secHdr.length - 4) padByte)))
    ∧ (∀ (U : List Nat) (i j : Nat), i < U.length → j < 8 →
      crc32c (U.set i (U.getD i 0 ^^^ (1 <<< j))) ≠ crc32c U) := by
  constructor
  · intro apid typeTC secHdr body padByte dfl seq pkt hb
    have hle : secHdr.length + 4 ≤ dfl := by
      by_contra hlt
      simp only [buildPacket, if_true] at hb
      rw [if_pos (by omega)] at hb
      exact Option.noConfusion hb
    rw [buildPacket_mic_eq apid typeTC secHdr body padByte dfl seq hle] at hb
    have hpkt := (Option.some.injEq _ _).mp hb
    subst hpkt
    exact drop_header_sec _ _ _ (packPrimaryHeader_length _ _ _ _ _ _ _)
  · intro U i j hi hj
    exact crc32c_flip_ne U i j hi hj

/-- Witness for C7 at a concrete profile and a concrete bit flip. -/
theorem C7_mic_closure_witness :
    (buildPacket 0xB3 true [] [1, 2, 3] 0 true 8 0
        = some [16, 179, 192, 0, 0, 7, 1, 2, 3, 0, 238, 170, 27, 235]
      → [(16 : Nat), 179, 192, 0, 0, 7, 1, 2, 3, 0, 238, 170, 27, 235].drop 6
        = padOrTruncate [1, 2, 3] 4 0 ++ beU32 (crc32c (padOrTruncate [1, 2, 3] 4 0)))
    ∧ crc32c ((List.replicate 5 7).set 1 ((List.replicate 5 7).getD 1 0 ^^^ (1 <<< 3)))
      ≠ crc32c (List.replicate 5 7) :=
  ⟨fun h => by
      have := C7_mic_closure.1 0xB3 true [] [1, 2, 3] 0 8 0 _ h
      simpa using this,
    C7_mic_closure.2 (List.replicate 5 7) 1 3 (by decide) (by decide)⟩

/-- C3 counterexample: at sequence 0 (secondary header taken as eight zero
clock bytes) the first header byte is 0x18, not the 0x1A the claim states:
the packed word is `(1<<12)|(1<<11)|0x0B3 = 0x18B3`. -/
theorem C3_counterexample :
    (buildPacket 0xB3 true (List.replicate 8 0) cfdpText 0x00 true 138 0).map
        (List.take 6)
      = some [0x18, 0xB3, 0xC0, 0x00, 0x00, 0x89]
    ∧ ([0x18, 0xB3, 0xC0, 0x00, 0x00, 0x89] : List Nat)
      ≠ [0x1A, 0xB3, 0xC0, 0x00, 0x00, 0x89] := by
  constructor
  · set_option maxRecDepth 10000 in decide
  · decide

/-- C3 (amended): for the CFDP profile at sequence 0, whatever the eight
clock bytes are, the packet is 144 bytes, the primary header is
`18 B3 C0 00 00 89`, the user portion is the text plus 116 zero pad bytes,
and the last four bytes are the big-endian CRC-32C of that 126-byte user. -/
theorem C3_packet_shape (secHdr : List Nat) (h8 : secHdr.length = 8) :
    ∃ pkt, buildPacket 0xB3 true secHdr cfdpText 0x00 true 138 0 = some pkt
      ∧ pkt.length = 144
      ∧ pkt.take 6 = [0x18, 0xB3, 0xC0, 0x00, 0x00, 0x89]
      ∧ (pkt.drop 6).take 8 = secHdr
      ∧ (pkt.drop 14).take 126 = cfdpText ++ List.replicate 116 0
      ∧ pkt.drop 140 = beU32 (crc32c (cfdpText ++ List.replicate 116 0)) := by
  have hb := buildPacket_mic_eq 0xB3 true secHdr cfdpText 0x00 138 0
    (by omega)
  rw [h8] at hb
  norm_num at hb
  have hpad : padOrTruncate cfdpText 126 0 = cfdpText ++ List.replicate 116 0 := by
    decide
  rw [hpad] at hb
  have hhdr : packPrimaryHeader 0 1 1 0xB3 3 0 137
      = [0x18, 0xB3, 0xC0, 0x00, 0x00, 0x89] := by decide
  rw [hhdr] at hb
  refine ⟨_, hb, ?_, ?_, ?_, ?_, ?_⟩
  · simp [h8, beU32, cfdpText]
  · rw [List.take_left' (by simp)]
  · rw [List.drop_left' (by simp), List.take_left' h8]
  · have : (14 : Nat) = 6 + 8 := by norm_num
    rw [this, ← List.drop_drop, List.drop_left' (by simp),
      List.drop_left' h8, List.take_left' (by simp [cfdpText])]
  · have : (140 : Nat) = (6 + 8) + 126 := by norm_num
    rw [this, ← List.drop_drop, ← List.drop_drop, List.drop_left' (by simp),
      List.drop_left' h8, List.drop_left' (by simp [cfdpText])]

/-- Witness for C3 (amended) at concrete clock bytes. -/
theorem C3_packet_shape_witness :
    (List.replicate 8 3).length = 8
    ∧ ∃ pkt, buildPacket 0xB3 true (List.replicate 8 3) cfdpText 0x00 true 138 0
        = some pkt
      ∧ pkt.length = 144
      ∧ pkt.take 6 = [0x18, 0xB3, 0xC0, 0x00, 0x00, 0x89]
      ∧ (pkt.drop 6).take 8 = List.replicate 8 3
      ∧ (pkt.drop 14).take 126 = cfdpText ++ List.replicate 116 0
      ∧ pkt.drop 140 = beU32 (crc32c (cfdpText ++ List.replicate 116 0)) :=
  ⟨by decide, C3_packet_shape (List.replicate 8 3) (by decide)⟩

/-! ## Receiver claims C4, C10 -/

/-- C4 counterexample: the claim says a MIC mismatch yields BAD exactly when
the mode is "on", and that the ≥4-byte test is on the data field.  Both fail:
in `auto` mode with a profile that expects a MIC, a mismatch is BAD; and with
an 8-byte secondary header inside a 10-byte data field (≥ 4 bytes) the
receiver reports SHORT without comparing any CRC. -/
theorem C4_counterexample :
    ((micCheck MicMode.auto (some true) 0 0 [0, 0, 0, 1]).1 = MicState.bad
      ∧ MicMode.auto ≠ MicMode.mon)
    ∧ ((micCheck MicMode.mon none 1 8 (List.replicate 10 0)).1 = MicState.short
      ∧ 4 ≤ (List.replicate 10 0).length) := by
  constructor
  · exact ⟨by decide, by decide⟩
  · exact ⟨by decide, by decide⟩

/-- C4 (amended): in "off" mode no MIC is inspected; otherwise, with `uam`
the data field after the secondary header: when `uam` is at least 4 bytes the
CRC-32C of `uam[:-4]` is compared to the trailing 4 bytes big-endian —
equality gives OK with `uam[:-4]` as user, inequality gives BAD exactly when
the mode is "on" or the profile lookup expects a MIC (else "none") — and when
`uam` is shorter than 4 bytes the state is SHORT exactly under that same
condition (else "none"), the user bytes staying `uam`. -/
theorem C4_mic_policy (micMode : MicMode) (micExpect : Option Bool)
    (shf secLenCfg : Nat) (dataField : List Nat) :
    ((micCheck micMode micExpect shf secLenCfg dataField).1 = MicState.moff
      ↔ micMode = MicMode.off)
    ∧ ((micCheck micMode micExpect shf secLenCfg dataField).1 = MicState.ok
      ↔ micMode ≠ MicMode.off
        ∧ 4 ≤ (dataField.drop (effSecLen shf secLenCfg dataField)).length
        ∧ beInt ((dataField.drop (effSecLen shf secLenCfg dataField)).drop
            ((dataField.drop (effSecLen shf secLenCfg dataField)).length - 4))
          = crc32c ((dataField.drop (effSecLen shf secLenCfg dataField)).take
            ((dataField.drop (effSecLen shf secLenCfg dataField)).length - 4)))
    ∧ ((micCheck micMode micExpect shf secLenCfg dataField).1 = MicState.bad
      ↔ micMode ≠ MicMode.off
        ∧ 4 ≤ (dataField.drop (effSecLen shf secLenCfg dataField)).length
        ∧ beInt ((dataField.drop (effSecLen shf secLenCfg dataField)).drop
            ((dataField.drop (effSecLen shf secLenCfg dataField)).length - 4))
          ≠ crc32c ((dataField.drop (effSecLen shf secLenCfg dataField)).take
            ((dataField.drop (effSecLen shf secLenCfg dataField)).length - 4))
        ∧ (micMode = MicMode.mon ∨ micExpect = some true))
    ∧ ((micCheck micMode micExpect shf secLenCfg dataField).1 = MicState.short
      ↔ micMode ≠ MicMode.off
        ∧ (dataField.drop (effSecLen shf secLenCfg dataField)).length < 4
        ∧ (micMode = MicMode.mon ∨ micExpect = some true))
    ∧ (micCheck micMode micExpect shf secLenCfg dataField).2
      = (if (micCheck micMode micExpect shf secLenCfg dataField).1 = MicState.ok
        then (dataField.drop (effSecLen shf secLenCfg dataField)).take
          ((dataField.drop (effSecLen shf secLenCfg dataField)).length - 4)
        else dataField.drop (effSecLen shf secLenCfg dataField)) := by
  simp only [micCheck]
  split_ifs with h1 h2 h3 h4 h5 <;> simp_all

/-- C10: when the configured secondary-header length exceeds the data field,
`process_packet` silently zeroes it and proceeds, so MIC detection sees the
whole data field. -/
theorem C10_seclen_overflow (micMode : MicMode) (micExpect : Option Bool)
    (shf secLenCfg : Nat) (dataField : List Nat)
    (h : dataField.length < secLenCfg) :
    effSecLen shf secLenCfg dataField = 0
    ∧ micCheck micMode micExpect shf secLenCfg dataField
      = micCheck micMode micExpect shf 0 dataField := by
  have he : effSecLen shf secLenCfg dataField = 0 := by
    simp only [effSecLen]
    split_ifs <;> simp_all
  have he0 : effSecLen shf 0 dataField = 0 := by
    simp only [effSecLen]
    split_ifs <;> simp_all
  refine ⟨he, ?_⟩
  simp only [micCheck, he, he0]

/-- Witness for C4 at a concrete mismatching packet in auto mode. -/
theorem C4_mic_policy_witness :
    (micCheck MicMode.auto (some true) 0 0 [0, 0, 0, 2]).1 = MicState.bad := by
  have h := C4_mic_policy MicMode.auto (some true) 0 0 [0, 0, 0, 2]
  exact h.2.2.1.mpr ⟨by decide, by decide, by decide, by decide⟩

/-- Witness for C10 at a concrete short packet. -/
theorem C10_seclen_overflow_witness :
    ([(1 : Nat), 2].length < 10)
    ∧ (effSecLen 1 10 [1, 2] = 0
      ∧ micCheck MicMode.auto none 1 10 [1, 2]
        = micCheck MicMode.auto none 1 0 [1, 2]) :=
  ⟨by decide, C10_seclen_overflow MicMode.auto none 1 10 [1, 2] (by decide)⟩

/-! ## Claim C1: convolutional/Viterbi round trip -/

/-- C1: the noiseless round trip fails on the single-byte frame `0x80`:
encoding it, mapping coded bits to ±1 softs, and decoding in pm1 mode yields
`0x9A`, not `0x80`.  The cause is visible in the decoder's trellis table:
`_build_trellis` stores `ns = (((s << 1) | u) & 0x7F) >> 1 & 0x3F`, which
equals `s` for every state and branch, so only state 0 is ever reachable and
each symbol is decided by a memoryless threshold. -/
theorem C1_viterbi_roundtrip_fails :
    viterbiDecode ((bytesToBits (convEncodeFrame [0x80])).map softOfBit) = [0x9A]
    ∧ ([0x9A] : List Nat) ≠ [0x80]
    ∧ (∀ s, s < 64 → ∀ u, u < 2 → vitNs s u = s) := by
  refine ⟨?_, by decide, by decide⟩
  with_unfolding_all decide

/-! ## Claim C8: randomizer involution -/

theorem randAux_invol (l : List Nat) : ∀ s : Nat, randAux s (randAux s l) = l := by
  induction l with
  | nil => intro s; rfl
  | cons b bs ih =>
    intro s
    simp only [randAux, Nat.xor_cancel_right, ih]

/-- C8: with per-frame re-seeding, applying the randomizer twice with the
same 15-bit seed restores the frame. -/
theorem C8_randomizer_involution (seed : Nat) (frame : List Nat)
    (hseed : seed < 0x8000) (hbytes : ∀ b ∈ frame, b < 256) :
    randomizeFrame seed (randomizeFrame seed frame) = frame :=
  randAux_invol frame (seed &&& 0x7FFF)

/-- Witness for C8 at the default seed and a concrete frame. -/
theorem C8_randomizer_involution_witness :
    (0x7FFF : Nat) < 0x8000
    ∧ (∀ b ∈ [(0xAB : Nat), 0xCD], b < 256)
    ∧ randomizeFrame 0x7FFF (randomizeFrame 0x7FFF [0xAB, 0xCD]) = [0xAB, 0xCD] :=
  ⟨by decide, by decide,
    C8_randomizer_involution 0x7FFF [0xAB, 0xCD] (by decide) (by decide)⟩

/-! ## Claim C9: SPP length tagger -/

theorem spTotalLen_append (p rest : List Nat) (h : 6 ≤ p.length) :
    spTotalLen (p ++ rest) = spTotalLen p := by
  simp only [spTotalLen]
  rw [List.getD_append _ _ _ _ (by omega), List.getD_append _ _ _ _ (by omega)]

theorem wellFormedSP_seven (p : List Nat) (h : wellFormedSP p) : 7 ≤ p.length := by
  simp only [wellFormedSP, spTotalLen] at h
  omega

/-- The packet loop consumes a buffer made of whole well-formed packets
entirely, emitting their bytes and one tag per packet, when the output space
suffices. -/
theorem taggerLoop_packets : ∀ (ps : List (List Nat)) (a space : Nat),
    (∀ p ∈ ps, wellFormedSP p) → ps.flatten.length ≤ space →
    taggerLoop ps.flatten a space
      = (ps.flatten, spTags a ps, [], a + ps.flatten.length) := by
  intro ps
  induction ps with
  | nil =>
    intro a space _ _
    rw [taggerLoop]
    simp [spTags]
  | cons p ps ih =>
    intro a space hwf hsp
    have hwfp : wellFormedSP p := hwf p (by simp)
    have h7 : 7 ≤ p.length := wellFormedSP_seven p hwfp
    have hflat : (p :: ps).flatten = p ++ ps.flatten := List.flatten_cons ..
    have htl : spTotalLen (p ++ ps.flatten) = p.length := by
      rw [spTotalLen_append p ps.flatten (by omega)]
      exact hwfp.symm
    have hlenflat : (p ++ ps.flatten).length = p.length + ps.flatten.length :=
      List.length_append ..
    rw [hflat, hlenflat] at hsp
    rw [hflat, taggerLoop]
    rw [dif_neg (by omega)]
    simp only [htl]
    rw [dif_neg (by omega)]
    rw [if_neg (by omega)]
    rw [List.drop_left, List.take_left]
    have hrec := ih (a + p.length) (space - p.length)
      (fun q hq => hwf q (by simp [hq]))
      (by omega)
    rw [hrec]
    simp [spTags, List.length_append, Nat.add_assoc]

/-- C9 counterexample: the single well-formed 7-byte packet delivered in a
3-byte chunk and then a 4-byte chunk is copied to the output in full by the
untagged spill path — the tagger emits all 7 bytes and no length tag at all. -/
theorem C9_counterexample :
    taggerWork ⟨[], 0⟩ (List.replicate 3 0) 100
        = (List.replicate 3 0, [], ⟨[], 3⟩)
    ∧ taggerWork ⟨[], 3⟩ (List.replicate 4 0) 100
        = (List.replicate 4 0, [], ⟨[], 7⟩)
    ∧ wellFormedSP (List.replicate 3 0 ++ List.replicate 4 0) := by
  refine ⟨?_, ?_, by decide⟩
  · simp [taggerWork, taggerLoop]
  · simp [taggerWork, taggerLoop]

/-- C9 (amended): when a `general_work` call starts with an empty buffer,
receives only whole well-formed packets and has room for all of them, the
tagger emits exactly the packet bytes, with exactly one tag at the first
output byte of each packet valued at that packet's total length (so the tags
tile the whole output), and retains nothing. -/
theorem C9_tagger_single_call (ps : List (List Nat)) (a space : Nat)
    (hwf : ∀ p ∈ ps, wellFormedSP p) (hsp : ps.flatten.length ≤ space) :
    taggerWork ⟨[], a⟩ ps.flatten space
      = (ps.flatten, spTags a ps, ⟨[], a + ps.flatten.length⟩) := by
  simp only [taggerWork, List.nil_append]
  rw [taggerLoop_packets ps a space hwf hsp]
  simp

/-- Witness for C9 (amended) on two concrete packets. -/
theorem C9_tagger_single_call_witness :
    (∀ p ∈ [List.replicate 7 0, [(9 : Nat), 9, 9, 9, 0, 1, 9, 9]], wellFormedSP p)
    ∧ ([List.replicate 7 0, [(9 : Nat), 9, 9, 9, 0, 1, 9, 9]].flatten.length ≤ 100)
    ∧ taggerWork ⟨[], 5⟩ [List.replicate 7 0, [(9 : Nat), 9, 9, 9, 0, 1, 9, 9]].flatten 100
      = ([List.replicate 7 0, [(9 : Nat), 9, 9, 9, 0, 1, 9, 9]].flatten,
        spTags 5 [List.replicate 7 0, [(9 : Nat), 9, 9, 9, 0, 1, 9, 9]],
        ⟨[], 5 + [List.replicate 7 0, [(9 : Nat), 9, 9, 9, 0, 1, 9, 9]].flatten.length⟩) :=
  ⟨by decide, by decide,
    C9_tagger_single_call [List.replicate 7 0, [9, 9, 9, 9, 0, 1, 9, 9]] 5 100
      (by decide) (by decide)⟩

/-! ## TM framer lemmas and claims C5, C6 -/

theorem take_append_ge (l1 l2 : List Nat) (n : Nat) (h : l1.length ≤ n) :
    (l1 ++ l2).take n = l1 ++ l2.take (n - l1.length) := by
  rw [List.take_append_eq_append_take, List.take_of_length_le h]

theorem drop_append_ge (l1 l2 : List Nat) (n : Nat) (h : l1.length ≤ n) :
    (l1 ++ l2).drop n = l2.drop (n - l1.length) := by
  rw [List.drop_append_eq_append_drop, List.drop_of_length_le h]
  simp

theorem splice_decomp (buf : List Nat) (i : Nat) (seg : List Nat) :
    splice buf i seg = (buf.take i ++ seg) ++ buf.drop (i + seg.length) := by
  simp [splice]

theorem splice_length (buf : List Nat) (i : Nat) (seg : List Nat)
    (h : i + seg.length ≤ buf.length) :
    (splice buf i seg).length = buf.length := by
  simp only [splice, List.length_append, List.length_take, List.length_drop]
  omega

/-- The packet-placement loop writes the concatenation of the queued
packets, clipped at the end of the data field, directly after the first
`cursor` bytes; the final cursor is the clipped total. -/
theorem placeLoop_spec (T : Nat) :
    ∀ (q : List (List Nat)) (cursor : Nat) (tfdf hs : List Nat)
      (cur : Option (List Nat × Nat)),
    tfdf.length = T → cursor ≤ T →
    (placeLoop T q cursor tfdf hs cur).2.1 = min T (cursor + q.flatten.length)
    ∧ (placeLoop T q cursor tfdf hs cur).2.2.1
      = tfdf.take cursor
        ++ q.flatten.take ((placeLoop T q cursor tfdf hs cur).2.1 - cursor)
        ++ tfdf.drop (placeLoop T q cursor tfdf hs cur).2.1 := by
  intro q
  induction q with
  | nil =>
    intro cursor tfdf hs cur hlen hc
    simp only [placeLoop, List.flatten_nil, List.length_nil, Nat.add_zero,
      Nat.sub_self, List.take_zero, List.nil_append]
    exact ⟨(Nat.min_eq_right hc).symm,
      by rw [List.append_nil, List.take_append_drop]⟩
  | cons pkt rest ih =>
    intro cursor tfdf hs cur hlen hc
    by_cases hT : T ≤ cursor
    · have hceq : cursor = T := by omega
      simp only [placeLoop, if_pos hT]
      subst hceq
      constructor
      · have : cursor ≤ cursor + (pkt :: rest).flatten.length := Nat.le_add_right ..
        omega
      · rw [Nat.sub_self, List.take_zero, List.take_of_length_le (by omega),
          List.drop_of_length_le (by omega)]
        simp
    · by_cases hfit : pkt.length ≤ T - cursor
      · have hstep : placeLoop T (pkt :: rest) cursor tfdf hs cur
            = placeLoop T rest (cursor + pkt.length) (splice tfdf cursor pkt)
              (hs ++ [cursor]) cur := by
          simp only [placeLoop, if_neg hT, if_pos hfit]
        rw [hstep]
        have hlen2 : (splice tfdf cursor pkt).length = T := by
          rw [splice_length _ _ _ (by omega)]
          exact hlen
        have hc2 : cursor + pkt.length ≤ T := by omega
        obtain ⟨ihc, iht⟩ := ih (cursor + pkt.length) (splice tfdf cursor pkt)
          (hs ++ [cursor]) cur hlen2 hc2
        set c2 := (placeLoop T rest (cursor + pkt.length) (splice tfdf cursor pkt)
          (hs ++ [cursor]) cur).2.1 with hc2def
        have hcmin : c2 = min T (cursor + (pkt :: rest).flatten.length) := by
          rw [ihc]
          simp [Nat.add_assoc]
        have hc2ge : cursor + pkt.length ≤ c2 := by
          rw [ihc]
          simp only [Nat.le_min]
          exact ⟨hc2, Nat.le_add_right ..⟩
        have htk : (splice tfdf cursor pkt).take (cursor + pkt.length)
            = tfdf.take cursor ++ pkt := by
          rw [splice_decomp]
          rw [List.take_append_of_le_length (by
            simp only [List.length_append, List.length_take]
            omega)]
          rw [List.take_of_length_le (by
            simp only [List.length_append, List.length_take]
            omega)]
        have hdp : (splice tfdf cursor pkt).drop c2 = tfdf.drop c2 := by
          rw [splice_decomp]
          rw [drop_append_ge _ _ _ (by
            simp only [List.length_append, List.length_take]
            omega)]
          rw [List.drop_drop]
          congr 1
          simp only [List.length_append, List.length_take]
          omega
        refine ⟨hcmin, ?_⟩
        rw [iht, htk, hdp]
        have hx : pkt.length ≤ c2 - cursor := by omega
        have hflt : (pkt :: rest).flatten.take (c2 - cursor)
            = pkt ++ rest.flatten.take (c2 - (cursor + pkt.length)) := by
          rw [List.flatten_cons, take_append_ge _ _ _ hx]
          have harith : c2 - cursor - pkt.length = c2 - (cursor + pkt.length) := by
            omega
          rw [harith]
        rw [hflt]
        simp [List.append_assoc]
      · have hroom : 0 < T - cursor := by omega
        have hstep : placeLoop T (pkt :: rest) cursor tfdf hs cur
            = (rest, T, splice tfdf cursor (pkt.take (T - cursor)),
              hs ++ [cursor], some (pkt, T - cursor)) := by
          simp only [placeLoop, if_neg hT, if_neg hfit]
        rw [hstep]
        have hmin : T = min T (cursor + (pkt :: rest).flatten.length) := by
          simp only [List.flatten_cons, List.length_append]
          omega
        refine ⟨hmin, ?_⟩
        rw [splice_decomp]
        have hsegl : (pkt.take (T - cursor)).length = T - cursor := by
          simp only [List.length_take]
          omega
        rw [hsegl]
        have hdropT : cursor + (T - cursor) = T := by omega
        rw [hdropT]
        have hfl : (pkt :: rest).flatten.take (T - cursor)
            = pkt.take (T - cursor) := by
          rw [List.flatten_cons]
          exact List.take_append_of_le_length (by omega)
        rw [hfl]
        try simp [List.append_assoc]

/-- Step 1 places the continuation bytes at the head of the zeroed data
field. -/
theorem placeCont_spec (T : Nat) (cur : Option (List Nat × Nat)) :
    (placeCont T (List.replicate T 0) cur).2.1 = min (contRem cur).length T
    ∧ (placeCont T (List.replicate T 0) cur).1
      = (contRem cur).take (min (contRem cur).length T)
        ++ List.replicate (T - min (contRem cur).length T) 0 := by
  match cur with
  | none =>
    simp [placeCont, contRem]
  | some (d, pos) =>
    have hl : (contRem (some (d, pos))).length = d.length - pos := by
      simp [contRem]
    rw [hl]
    have hseg : ((d.drop pos).take (min (d.length - pos) T)).length
        = min (d.length - pos) T := by
      rw [List.length_take, List.length_drop]
      omega
    constructor
    · simp [placeCont]
    · simp only [placeCont, splice, List.take_zero, List.nil_append,
        Nat.zero_add, hseg, List.drop_replicate, contRem]

/-- The cursor after packet placement is the clipped available length. -/
theorem framePlace_cursor (cfg : FrCfg) (st : FrSt) :
    (framePlace cfg st).2.1 = min cfg.tfdfLen (framerAvail st).length := by
  obtain ⟨hc1, ht1⟩ := placeCont_spec cfg.tfdfLen st.cur
  set T := cfg.tfdfLen with hT
  set rem := contRem st.cur with hrem
  set s1 := placeCont T (List.replicate T 0) st.cur with hs1
  have hlen1 : s1.1.length = T := by
    rw [ht1]
    simp only [List.length_append, List.length_take, List.length_replicate]
    omega
  obtain ⟨hc2, _⟩ := placeLoop_spec T st.queue s1.2.1 s1.1 [] s1.2.2 hlen1
    (by rw [hc1]; exact Nat.min_le_right ..)
  simp only [framePlace, ← hT, ← hs1]
  rw [hc2, hc1, framerAvail, ← hrem, List.length_append]
  omega

/-- The placed region of the TFDF after steps 1 and 2 is the available
byte stream clipped at the cursor; the rest of the buffer is still zero. -/
theorem framePlace_tfdf (cfg : FrCfg) (st : FrSt) :
    (framePlace cfg st).2.2.1
      = (framerAvail st).take ((framePlace cfg st).2.1)
        ++ List.replicate (cfg.tfdfLen - (framePlace cfg st).2.1) 0 := by
  obtain ⟨hc1, ht1⟩ := placeCont_spec cfg.tfdfLen st.cur
  set T := cfg.tfdfLen with hT
  set rem := contRem st.cur with hrem
  set qflat := st.queue.flatten with hqflat
  set c1 := min rem.length T with hc1def
  set s1 := placeCont T (List.replicate T 0) st.cur with hs1
  have hc1T : c1 ≤ T := Nat.min_le_right ..
  have hc1r : c1 ≤ rem.length := Nat.min_le_left ..
  have hlen1 : s1.1.length = T := by
    rw [ht1]
    simp only [List.length_append, List.length_take, List.length_replicate]
    omega
  obtain ⟨hc2, ht2⟩ := placeLoop_spec T st.queue s1.2.1 s1.1 [] s1.2.2 hlen1
    (by rw [hc1]; exact hc1T)
  have hcur : (framePlace cfg st).2.1 = min T (c1 + qflat.length) := by
    simp only [framePlace, ← hT, ← hs1]
    rw [hc2, hc1]
  set c2 := min T (c1 + qflat.length) with hc2def
  have hc2T : c2 ≤ T := Nat.min_le_left ..
  have hc1c2 : c1 ≤ c2 := by rw [hc2def]; omega
  have hc2q : c2 - c1 ≤ qflat.length := by rw [hc2def]; omega
  have htake1 : s1.1.take c1 = rem.take c1 := by
    rw [ht1,
      List.take_append_of_le_length (by simp only [List.length_take]; omega),
      List.take_take]
    simp
  have hdrop1 : s1.1.drop c2 = List.replicate (T - c2) 0 := by
    rw [ht1,
      drop_append_ge _ _ _ (by simp only [List.length_take]; omega),
      List.drop_replicate]
    congr 1
    simp only [List.length_take]
    omega
  have htakeavail : (framerAvail st).take c2
      = rem.take c1 ++ qflat.take (c2 - c1) := by
    rw [framerAvail, ← hrem, ← hqflat]
    rcases Nat.le_total rem.length T with hrt | hrt
    · have hc1eq : c1 = rem.length := by rw [hc1def]; omega
      rw [take_append_ge _ _ _ (by omega), hc1eq, List.take_length]
    · have hc1eq : c1 = T := by rw [hc1def]; omega
      have hc2eq : c2 = T := by rw [hc2def]; omega
      rw [hc2eq, List.take_append_of_le_length (by omega), hc1eq]
      simp
  have hunfold : (framePlace cfg st).2.2.1
      = (placeLoop T st.queue s1.2.1 s1.1 [] s1.2.2).2.2.1 := by
    simp only [framePlace, ← hT, ← hs1]
  have hcur2 : (placeLoop T st.queue s1.2.1 s1.1 [] s1.2.2).2.1 = c2 := by
    rw [hc2, hc1, hc2def]
  rw [hcur, hunfold, ht2, hcur2, hc1, htake1, hdrop1, htakeavail, hqflat]
  try simp [List.append_assoc]

/-- The final TFDF length is always the configured data-field length. -/
theorem frameTfdf_shape (cfg : FrCfg) (st : FrSt) :
    frameTfdf cfg st
      = (framerAvail st).take ((framePlace cfg st).2.1)
        ++ List.replicate (cfg.tfdfLen - (framePlace cfg st).2.1)
            (if frameOnlyIdle cfg st then cfg.idleFill else 0) := by
  have hpl := framePlace_tfdf cfg st
  have hcur := framePlace_cursor cfg st
  set T := cfg.tfdfLen with hT
  set c2 := (framePlace cfg st).2.1 with hc2
  have hc2T : c2 ≤ T := by rw [hcur]; exact Nat.min_le_left ..
  have htklen : ((framerAvail st).take c2).length = c2 := by
    rw [List.length_take, hcur]
    omega
  simp only [frameTfdf, ← hT, ← hc2]
  split_ifs with hoi
  · rw [hpl, splice_decomp]
    rw [List.take_append_of_le_length (by
        simp only [List.length_append, htklen, List.length_replicate]; omega)]
    rw [List.take_of_length_le (by rw [htklen])]
    rw [List.length_replicate]
    rw [drop_append_ge _ _ _ (by
        simp only [List.length_append, htklen, List.length_replicate]; omega)]
    rw [List.drop_replicate]
    have h1 : T - c2 - (c2 + (T - c2) - ((framerAvail st).take c2).length) = 0 := by
      rw [htklen]
      omega
    rw [h1]
    simp
  · rw [hpl]

/-- C6 (amended): the data field of every emitted frame consists of the
available packet bytes (continuation first, then queued packets) clipped to
the field, followed by fill bytes — the configured idle byte on an
Only-Idle-Data frame, and 0x00 otherwise; the number of placed packet bytes
is the clipped available length. -/
theorem C6_tfdf_occupancy (cfg : FrCfg) (st : FrSt) :
    (buildFrame cfg st).cursor = min cfg.tfdfLen (framerAvail st).length
    ∧ ((buildFrame cfg st).frame.drop 6).take cfg.tfdfLen
      = (framerAvail st).take ((buildFrame cfg st).cursor)
        ++ List.replicate (cfg.tfdfLen - (buildFrame cfg st).cursor)
            (if (buildFrame cfg st).onlyIdle then cfg.idleFill else 0) := by
  have hcur := framePlace_cursor cfg st
  have hshape := frameTfdf_shape cfg st
  have hcursor : (buildFrame cfg st).cursor = (framePlace cfg st).2.1 := rfl
  have honly : (buildFrame cfg st).onlyIdle = frameOnlyIdle cfg st := rfl
  refine ⟨by rw [hcursor, hcur], ?_⟩
  have hlenTfdf : (frameTfdf cfg st).length = cfg.tfdfLen := by
    rw [hshape]
    simp only [List.length_append, List.length_take, List.length_replicate, hcur]
    omega
  have hdrop6 : (buildFrame cfg st).frame.drop 6
      = frameTfdf cfg st
        ++ (if cfg.includeFecf then
          [(crc16Ibm (packTmHeader cfg st.mc st.vc (frameFhp cfg st)
              ++ frameTfdf cfg st) >>> 8) &&& 0xFF,
            crc16Ibm (packTmHeader cfg st.mc st.vc (frameFhp cfg st)
              ++ frameTfdf cfg st) &&& 0xFF]
          else []) := by
    simp only [buildFrame]
    split_ifs with hf
    · rw [List.append_assoc, List.drop_left' (by simp [packTmHeader])]
    · rw [List.drop_left' (by simp [packTmHeader])]
      simp
  rw [hdrop6, List.take_append_of_le_length (by rw [hlenTfdf]),
    List.take_of_length_le (by rw [hlenTfdf]), hshape, hcursor, honly]

/-- C6 counterexample: with idle emission disabled and nothing queued, the
framer still emits a frame whose 2-byte data field is 0x00 0x00 — bytes that
are neither packet data (no packet exists) nor the configured idle fill
0x55. -/
theorem C6_counterexample :
    (buildFrame ⟨0, 0, false, 8, false, 0x55, false⟩ ⟨0, 0, [], none⟩).frame
      = [0, 0, 0, 0, 7, 0xFF, 0, 0]
    ∧ (buildFrame ⟨0, 0, false, 8, false, 0x55, false⟩ ⟨0, 0, [], none⟩).cursor = 0
    ∧ (buildFrame ⟨0, 0, false, 8, false, 0x55, false⟩ ⟨0, 0, [], none⟩).onlyIdle
      = false
    ∧ (0 : Nat) ≠ 0x55 := by
  refine ⟨?_, ?_, ?_, by decide⟩ <;> decide

/-! ## Reed–Solomon lemmas and claim C2 -/

theorem gfMul_comm (a b : Nat) : gfMul a b = gfMul b a := by
  simp only [gfMul]
  by_cases h : a = 0 ∨ b = 0
  · rw [if_pos h, if_pos (Or.symm h)]
  · rw [if_neg h, if_neg (fun hh => h (Or.symm hh))]
    rw [Int.add_comm]

theorem gfMul_zero_left (x : Nat) : gfMul 0 x = 0 := by
  simp [gfMul]

theorem getD_drop_add (l : List Nat) (k i : Nat) (d : Nat) :
    (l.drop k).getD i d = l.getD (k + i) d := by
  simp [List.getD, List.getElem?_drop]

theorem getD_map_range {α : Type} [Inhabited α] (f : Nat → α) (n j : Nat)
    (d : α) (h : j < n) :
    ((List.range n).map f).getD j d = f j := by
  rw [List.getD_eq_getElem _ _ (by simpa using h)]
  simp

theorem getD_map_list (f : List Nat → Nat) (l : List (List Nat)) (j : Nat)
    (d : Nat) (h : j < l.length) :
    (l.map f).getD j d = f (l.getD j []) := by
  rw [List.getD_eq_getElem _ _ (by simpa using h),
    List.getD_eq_getElem _ _ h]
  simp

theorem zipWith_xor_zero_left : ∀ (l : List Nat),
    List.zipWith (fun a b => a ^^^ b) (List.replicate l.length 0) l = l := by
  intro l
  induction l with
  | nil => rfl
  | cons x xs ih => simp [List.replicate_succ, ih, Nat.zero_xor]

theorem zipWith_xor_zero_right : ∀ (l : List Nat),
    List.zipWith (fun a b => a ^^^ b) l (List.replicate l.length 0) = l := by
  intro l
  induction l with
  | nil => rfl
  | cons x xs ih => simp [List.replicate_succ, ih, Nat.xor_zero]

theorem zipWith_xor_assoc : ∀ (A B C : List Nat),
    List.zipWith (fun a b => a ^^^ b) (List.zipWith (fun a b => a ^^^ b) A B) C
      = List.zipWith (fun a b => a ^^^ b) A (List.zipWith (fun a b => a ^^^ b) B C) := by
  intro A
  induction A with
  | nil => intro B C; rfl
  | cons a as ih =>
    intro B C
    cases B with
    | nil => rfl
    | cons b bs =>
      cases C with
      | nil => rfl
      | cons c cs => simp [ih, Nat.xor_assoc]

theorem foldl_length_invariant {β : Type} (f : List Nat → β → List Nat)
    (hf : ∀ r b, (f r b).length = r.length) :
    ∀ (l : List β) (r : List Nat), (l.foldl f r).length = r.length := by
  intro l
  induction l with
  | nil => intro r; rfl
  | cons x xs ih =>
    intro r
    rw [List.foldl_cons, ih, hf]

theorem polyMul_length (mul : Nat → Nat → Nat) (p q : List Nat) :
    (polyMul mul p q).length = p.length + q.length - 1 := by
  simp only [polyMul]
  rw [foldl_length_invariant]
  · exact List.length_replicate ..
  · intro r i
    split_ifs with ha
    · rfl
    · rw [foldl_length_invariant]
      intro r2 j
      split_ifs with hb
      · rfl
      · exact List.length_set ..

theorem rsGenerator_length (mul : Nat → Nat → Nat) (e : Nat → Nat) :
    (rsGenerator mul e).length = 33 := by
  have haux : ∀ (ks : List Nat) (g : List Nat), 1 ≤ g.length →
      ((ks.foldl (fun g k => polyMul mul g [1, e (k + 1)]) g)).length
        = g.length + ks.length := by
    intro ks
    induction ks with
    | nil => intro g _; simp
    | cons k kt ih =>
      intro g hg
      rw [List.foldl_cons, ih]
      · rw [polyMul_length]
        simp only [List.length_cons, List.length_nil]
        omega
      · rw [polyMul_length]
        simp only [List.length_cons, List.length_nil]
        omega
  simp only [rsGenerator]
  rw [haux _ _ (by simp)]
  simp

theorem rsGen_length : rsGen.length = 33 := rsGenerator_length ..

theorem rsEncodeStep_length (mul : Nat → Nat → Nat) (gen rem : List Nat)
    (d : Nat) (h : rem.length = 32) :
    (rsEncodeStep mul gen rem d).length = 32 := by
  simp only [rsEncodeStep]
  split_ifs
  · simp [List.length_tail, h]
  · simp

theorem strideTake_nil (I : Nat) : strideTake I ([] : List Nat) = [] := by
  rw [strideTake]

theorem strideTake_cons (I : Nat) (x : Nat) (xs : List Nat) :
    strideTake I (x :: xs) = x :: strideTake I (xs.drop (I - 1)) := by
  rw [strideTake]

theorem strideTake_length (I : Nat) (hI : 1 ≤ I) :
    ∀ (k : Nat) (l : List Nat), k * I < l.length + I → l.length ≤ k * I →
    (strideTake I l).length = k := by
  intro k
  induction k with
  | zero =>
    intro l _ h2
    have : l = [] := List.eq_nil_of_length_eq_zero (by omega)
    rw [this, strideTake_nil]
    rfl
  | succ k ih =>
    intro l h1 h2
    have hm : (k + 1) * I = k * I + I := Nat.succ_mul ..
    rw [hm] at h1 h2
    have hpos : 0 < l.length := by
      have hk : (0 : Nat) ≤ k * I := Nat.zero_le ..
      omega
    obtain ⟨x, xs, hx⟩ := List.exists_cons_of_ne_nil
      (List.ne_nil_of_length_pos hpos)
    subst hx
    rw [strideTake_cons]
    have hrest : (xs.drop (I - 1)).length = (x :: xs).length - I := by
      simp only [List.length_drop, List.length_cons]
      omega
    rw [List.length_cons, ih]
    · rw [hrest]
      simp only [List.length_cons] at h1 h2 ⊢
      omega
    · rw [hrest]
      simp only [List.length_cons] at h1 h2 ⊢
      omega

theorem strideTake_getD (I : Nat) (hI : 1 ≤ I) :
    ∀ (n : Nat) (l : List Nat) (d : Nat),
    (strideTake I l).getD n d = l.getD (n * I) d := by
  intro n
  induction n with
  | zero =>
    intro l d
    cases l with
    | nil => simp [strideTake_nil]
    | cons x xs =>
      rw [strideTake_cons, Nat.zero_mul]
      rfl
  | succ n ih =>
    intro l d
    cases l with
    | nil => rw [strideTake_nil]; simp
    | cons x xs =>
      rw [strideTake_cons, List.getD_cons_succ, ih, getD_drop_add]
      have hm : (n + 1) * I = n * I + I := Nat.succ_mul ..
      obtain ⟨m, hm2⟩ : ∃ m, n * I + I = m + 1 := ⟨n * I + I - 1, by omega⟩
      have hidx : I - 1 + n * I = m := by omega
      rw [hm, hm2, hidx, List.getD_cons_succ]

theorem subSeq_length (I : Nat) (tm : List Nat) (j : Nat) :
    (subSeq I tm j).length = 223 := by
  simp [subSeq]

theorem rsBranch_eq_subSeq (I : Nat) (tm : List Nat) (j : Nat) (hI : 0 < I)
    (hj : j < I) (hlen : tm.length = 223 * I) :
    rsBranch I tm j = subSeq I tm j ∧ (rsBranch I tm j).length = 223 := by
  have hdl : (tm.drop j).length = 223 * I - j := by
    simp [hlen]
  have hsl : (strideTake I (tm.drop j)).length = 223 := by
    apply strideTake_length I hI 223
    · rw [hdl]; omega
    · rw [hdl]; omega
  have hbr : rsBranch I tm j = strideTake I (tm.drop j) := by
    simp only [rsBranch, hsl, if_pos]
  have heq : strideTake I (tm.drop j) = subSeq I tm j := by
    apply List.ext_getElem
    · rw [hsl, subSeq_length]
    · intro k h1 h2
      rw [← List.getD_eq_getElem _ 0 h1, ← List.getD_eq_getElem _ 0 h2]
      rw [strideTake_getD I hI, getD_drop_add]
      rw [hsl] at h1
      simp only [subSeq]
      rw [getD_map_range _ _ _ _ h1]
      congr 1
      omega
  exact ⟨hbr.trans heq, by rw [hbr, hsl]⟩

/-! ### Equivalence of the windowed RS loop with polynomial long division -/

theorem gfPolyRem_of_short (mul : Nat → Nat → Nat) (g p : List Nat)
    (h : p.length ≤ 32) : gfPolyRem mul g p = p := by
  rw [gfPolyRem, dif_pos h]

theorem gfPolyRem_step (mul : Nat → Nat → Nat) (g p : List Nat)
    (h : 32 < p.length) :
    gfPolyRem mul g p
      = gfPolyRem mul g (List.zipWith (fun a b => a ^^^ b) p
          (g.map (fun gc => mul (p.headD 0) gc)
            ++ List.replicate (p.length - g.length) 0)).tail := by
  conv_lhs => rw [gfPolyRem]
  rw [dif_neg (by omega)]

theorem rsLoop_eq_polyRem (mul : Nat → Nat → Nat) (gen : List Nat)
    (hg : gen.length = 33) (hmul0 : ∀ x, mul 0 x = 0)
    (hcomm : ∀ a b, mul a b = mul b a) :
    ∀ (msg rem : List Nat), rem.length = 32 →
    msg.foldl (rsEncodeStep mul gen) rem
      = gfPolyRem mul gen (List.zipWith (fun a b => a ^^^ b)
          (msg ++ List.replicate 32 0) (rem ++ List.replicate msg.length 0)) := by
  intro msg
  induction msg with
  | nil =>
    intro rem h32
    simp only [List.foldl_nil, List.nil_append, List.length_nil,
      List.replicate_zero, List.append_nil]
    rw [← h32, zipWith_xor_zero_left,
      gfPolyRem_of_short _ _ _ (by omega)]
  | cons d ds ih =>
    intro rem h32
    have hrne : rem ≠ [] := List.ne_nil_of_length_pos (by omega)
    obtain ⟨r0, rtail, hr⟩ := List.exists_cons_of_ne_nil hrne
    have hgne : gen ≠ [] := List.ne_nil_of_length_pos (by omega)
    obtain ⟨g0, gtail, hgen⟩ := List.exists_cons_of_ne_nil hgne
    have hrt : rtail.length = 31 := by
      rw [hr] at h32
      simpa using h32
    have hgt : gtail.length = 32 := by
      rw [hgen] at hg
      simpa using hg
    rw [List.foldl_cons, ih _ (rsEncodeStep_length mul gen rem d h32)]
    have hplen : (List.zipWith (fun a b => a ^^^ b)
        ((d :: ds) ++ List.replicate 32 0)
        (rem ++ List.replicate (d :: ds).length 0)).length = 33 + ds.length := by
      simp only [List.length_zipWith, List.length_append, List.length_replicate,
        List.length_cons, h32]
      omega
    have h33 : 32 < (List.zipWith (fun a b => a ^^^ b)
        ((d :: ds) ++ List.replicate 32 0)
        (rem ++ List.replicate (d :: ds).length 0)).length := by
      rw [hplen]
      omega
    conv_rhs => rw [gfPolyRem_step mul gen _ h33]
    -- the dividend, with its head peeled
    have hP : List.zipWith (fun a b => a ^^^ b)
        ((d :: ds) ++ List.replicate 32 0)
        (rem ++ List.replicate (d :: ds).length 0)
        = (d ^^^ r0) :: List.zipWith (fun a b => a ^^^ b)
            (ds ++ List.replicate 32 0)
            (rtail ++ List.replicate (ds.length + 1) 0) := by
      rw [hr]
      rfl
    have hPhead : (List.zipWith (fun a b => a ^^^ b)
        ((d :: ds) ++ List.replicate 32 0)
        (rem ++ List.replicate (d :: ds).length 0)).headD 0 = d ^^^ r0 := by
      rw [hP]
      rfl
    -- the scaled generator, with its head peeled
    have hsub : 33 + ds.length - gen.length = ds.length := by
      rw [hg]
      omega
    have hsc : gen.map (fun gc => mul (d ^^^ r0) gc)
          ++ List.replicate ((List.zipWith (fun a b => a ^^^ b)
              ((d :: ds) ++ List.replicate 32 0)
              (rem ++ List.replicate (d :: ds).length 0)).length - gen.length) 0
        = mul (d ^^^ r0) g0
          :: (gtail.map (fun gc => mul (d ^^^ r0) gc)
            ++ List.replicate ds.length 0) := by
      rw [hplen, hsub, hgen]
      rfl
    rw [hPhead, hsc, hP]
    rw [List.zipWith_cons_cons, List.tail_cons]
    -- regroup the xors and split off the zero tail
    rw [zipWith_xor_assoc]
    have hB : rtail ++ List.replicate (ds.length + 1) 0
        = (rtail ++ [0]) ++ List.replicate ds.length 0 := by
      rw [List.replicate_succ, List.append_cons]
    rw [hB]
    have hzz : List.zipWith (fun a b => a ^^^ b)
        (List.replicate ds.length 0) (List.replicate ds.length 0)
        = List.replicate ds.length 0 := by
      have h := zipWith_xor_zero_right (List.replicate ds.length 0)
      rwa [List.length_replicate] at h
    have hlen32 : (rtail ++ [0]).length
        = (gtail.map (fun gc => mul (d ^^^ r0) gc)).length := by
      simp [hrt, hgt]
    conv_rhs => rw [List.zipWith_append _ _ _ _ _ hlen32, hzz]
    -- the 32-byte block is exactly one RS encoder step
    have hrem : List.zipWith (fun a b => a ^^^ b) (rtail ++ [0])
        (gtail.map (fun gc => mul (d ^^^ r0) gc))
        = rsEncodeStep mul gen rem d := by
      have hhead : rem.headD 0 = r0 := by rw [hr]; rfl
      have htail : rem.tail = rtail := by rw [hr, List.tail_cons]
      by_cases hc0 : d ^^^ r0 = 0
      · have hmap : gtail.map (fun gc => mul (d ^^^ r0) gc)
            = List.replicate 32 0 := by
          rw [hc0]
          rw [List.map_congr_left (fun a _ => hmul0 a)]
          rw [List.map_const']
          rw [hgt]
        rw [hmap]
        have h32l : (rtail ++ [0]).length = 32 := by simp [hrt]
        have h0 := zipWith_xor_zero_right (rtail ++ [0])
        rw [h32l] at h0
        rw [h0]
        simp only [rsEncodeStep, hhead, htail, hc0, if_pos]
      · simp only [rsEncodeStep, hhead, htail, if_neg hc0]
        apply List.ext_getElem
        · simp [hrt, hgt]
        · intro k h1 h2
          have hk : k < 32 := by
            simp only [List.length_zipWith, List.length_append,
              List.length_map, List.length_cons, List.length_nil, hrt, hgt] at h1
            omega
          rw [List.getElem_zipWith, List.getElem_map]
          rw [List.getElem_map, List.getElem_range]
          have hgd : gen.getD (k + 1) 0 = gtail[k] := by
            rw [hgen, List.getD_cons_succ,
              List.getD_eq_getElem _ _ (by rw [hgt]; exact hk)]
          have hkr : k < (rtail ++ [0]).length := by
            simp only [List.length_append, List.length_cons,
              List.length_nil, hrt]
            omega
          have hrd : (rtail ++ [0]).getD k 0 = (rtail ++ [0])[k] := by
            rw [List.getD_eq_getElem]
          rw [hgd, hrd, hcomm]
    rw [hrem]

theorem rsParityLoop_eq_spec (msg : List Nat) :
    rsParityLoop gfMul rsGen msg = rsParitySpec msg := by
  simp only [rsParityLoop, rsParitySpec]
  rw [rsLoop_eq_polyRem gfMul rsGen rsGen_length gfMul_zero_left gfMul_comm
      msg (List.replicate 32 0) (List.length_replicate ..)]
  congr 1
  have h1 : List.replicate 32 (0 : Nat) ++ List.replicate msg.length 0
      = List.replicate ((msg ++ List.replicate 32 0).length) (0 : Nat) := by
    rw [← List.replicate_add]
    congr 1
    simp only [List.length_append, List.length_replicate]
    omega
  rw [h1, zipWith_xor_zero_right]

theorem gfPolyRem_length_aux (mul : Nat → Nat → Nat) (g : List Nat) :
    ∀ (n : Nat) (p : List Nat), p.length ≤ n → 32 ≤ p.length →
    (gfPolyRem mul g p).length = 32 := by
  intro n
  induction n with
  | zero =>
    intro p h1 h2
    omega
  | succ n ih =>
    intro p h1 h2
    by_cases hc : p.length ≤ 32
    · rw [gfPolyRem_of_short _ _ _ hc]
      omega
    · rw [gfPolyRem_step mul g p (by omega)]
      apply ih
      · simp only [List.length_tail, List.length_zipWith, List.length_append,
          List.length_map, List.length_replicate]
        omega
      · simp only [List.length_tail, List.length_zipWith, List.length_append,
          List.length_map, List.length_replicate]
        omega

theorem gfPolyRem_length (mul : Nat → Nat → Nat) (g p : List Nat)
    (h : 32 ≤ p.length) : (gfPolyRem mul g p).length = 32 :=
  gfPolyRem_length_aux mul g p.length p (Nat.le_refl _) h

theorem rsCodeword_eq_spec (I : Nat) (tm : List Nat) (j : Nat) (hI : 0 < I)
    (hj : j < I) (hlen : tm.length = 223 * I) :
    rsCodeword I tm j = some (rsCodewordSpec I tm j) := by
  obtain ⟨hbr, hbl⟩ := rsBranch_eq_subSeq I tm j hI hj hlen
  have henc : rsEncode223 (rsBranch I tm j)
      = some (rsParityLoop gfMul rsGen (rsBranch I tm j)) := by
    simp only [rsEncode223]
    rw [if_pos hbl]
  simp only [rsCodeword, henc, Option.map_some']
  rw [hbr, rsParityLoop_eq_spec]
  simp only [rsCodewordSpec]

theorem optList_cons {α : Type} (x : Option α) (xs : List (Option α)) :
    optList (x :: xs) = match x, optList xs with
      | some v, some vs => some (v :: vs)
      | _, _ => none := rfl

theorem optList_map_some {α β : Type} (f : β → Option α) (g : β → α) :
    ∀ (l : List β), (∀ x ∈ l, f x = some (g x)) →
    optList (l.map f) = some (l.map g) := by
  intro l
  induction l with
  | nil => intro _; rfl
  | cons x xs ih =>
    intro h
    have hx : f x = some (g x) := h x (List.mem_cons_self ..)
    have hxs := ih fun y hy => h y (List.mem_cons_of_mem _ hy)
    rw [List.map_cons, optList_cons, hx, hxs]
    rfl

theorem flatten_rows_length {α : Type} (c : Nat) :
    ∀ (m : Nat) (f : Nat → List α), (∀ k, (f k).length = c) →
    (((List.range m).map f).flatten).length = m * c := by
  intro m
  induction m with
  | zero => intro f _; simp
  | succ m ih =>
    intro f hc
    rw [List.range_succ_eq_map, List.map_cons, List.map_map,
      List.flatten_cons, List.length_append, hc]
    rw [ih (f ∘ Nat.succ) (fun k => hc (k + 1)), Nat.succ_mul]
    omega

theorem flatten_rows_getD {α : Type} (d : α) (c : Nat) :
    ∀ (m : Nat) (f : Nat → List α), (∀ k, (f k).length = c) →
    ∀ (n j : Nat), n < m → j < c →
    (((List.range m).map f).flatten).getD (n * c + j) d = (f n).getD j d := by
  intro m
  induction m with
  | zero =>
    intro f _ n j hn _
    omega
  | succ m ih =>
    intro f hc n j hn hj
    rw [List.range_succ_eq_map, List.map_cons, List.map_map, List.flatten_cons]
    cases n with
    | zero =>
      rw [Nat.zero_mul, Nat.zero_add]
      exact List.getD_append _ _ _ _ (by rw [hc]; exact hj)
    | succ n =>
      have h1 : (f 0).length ≤ (n + 1) * c + j := by
        rw [hc, Nat.succ_mul]
        omega
      rw [List.getD_append_right _ _ _ _ h1]
      have h2 : (n + 1) * c + j - (f 0).length = n * c + j := by
        rw [hc, Nat.succ_mul]
        omega
      rw [h2]
      exact ih (f ∘ Nat.succ) (fun k => hc (k + 1)) n j (by omega) hj

/-- C2: confirmed.  For a TM frame of exactly `223·I` bytes the RS stage
succeeds and produces `255·I` bytes with `out[n·I + j] = codeword_j[n]`,
where `codeword_j = sub_j ‖ parity(sub_j)`, `sub_j[n] = frame[n·I + j]`,
and the parity is the 32-byte remainder of `x^32·msg(x)` under polynomial
division by the generator `g(x) = Π(x − αⁱ)`; the first `223·I` output
bytes are exactly the original frame. -/
theorem C2_rs_interleave (I : Nat) (tm : List Nat) (hI : 0 < I)
    (hlen : tm.length = 223 * I) :
    ∃ out, rsWork I tm = some out
      ∧ out.length = 255 * I
      ∧ (∀ n < 255, ∀ j < I, out.getD (n * I + j) 0
          = (rsCodewordSpec I tm j).getD n 0)
      ∧ (∀ j < I, (rsParitySpec (subSeq I tm j)).length = 32)
      ∧ out.take (223 * I) = tm := by
  have hopt : optList ((List.range I).map (rsCodeword I tm))
      = some ((List.range I).map (rsCodewordSpec I tm)) := by
    apply optList_map_some
    intro j hj
    exact rsCodeword_eq_spec I tm j hI (List.mem_range.mp hj) hlen
  have hrow : ((List.range 255).map fun n =>
        ((List.range I).map (rsCodewordSpec I tm)).map fun cw => cw.getD n 0)
      = (List.range 255).map fun n =>
        (List.range I).map fun jj => (rsCodewordSpec I tm jj).getD n 0 := by
    apply List.map_congr_left
    intro n _
    rw [List.map_map]
    rfl
  have hwork : rsWork I tm = some (((List.range 255).map fun n =>
      (List.range I).map fun jj => (rsCodewordSpec I tm jj).getD n 0).flatten) := by
    simp only [rsWork]
    rw [hopt, Option.map_some', hrow]
  have hrc : ∀ k, ((List.range I).map fun jj =>
      (rsCodewordSpec I tm jj).getD k 0).length = I := by
    intro k
    simp
  have hlenOut : (((List.range 255).map fun n =>
      (List.range I).map fun jj =>
        (rsCodewordSpec I tm jj).getD n 0).flatten).length = 255 * I :=
    flatten_rows_length I 255 _ hrc
  refine ⟨_, hwork, hlenOut, ?_, ?_, ?_⟩
  · intro n hn j hj
    rw [flatten_rows_getD 0 I 255 _ hrc n j hn hj]
    rw [getD_map_range _ _ _ _ hj]
  · intro j _
    apply gfPolyRem_length
    simp [subSeq_length]
  · apply List.ext_getElem
    · rw [List.length_take, hlenOut, hlen]
      omega
    · intro k h1 h2
      rw [List.getElem_take]
      have hk2 : k < 223 * I := by
        rw [List.length_take] at h1
        omega
      have hn : k / I < 223 := Nat.div_lt_of_lt_mul (by omega)
      have hj : k % I < I := Nat.mod_lt _ hI
      have hsplit : k / I * I + k % I = k := by
        rw [Nat.mul_comm]
        exact Nat.div_add_mod k I
      have hgl : k < (((List.range 255).map fun n =>
          (List.range I).map fun jj =>
            (rsCodewordSpec I tm jj).getD n 0).flatten).length := by
        rw [hlenOut]
        omega
      rw [← List.getD_eq_getElem _ 0 hgl, ← List.getD_eq_getElem tm 0 h2]
      conv_lhs => rw [← hsplit]
      rw [flatten_rows_getD 0 I 255 _ hrc (k / I) (k % I) (by omega) hj]
      rw [getD_map_range _ _ _ _ hj]
      simp only [rsCodewordSpec]
      rw [List.getD_append _ _ _ _ (by rw [subSeq_length]; exact hn)]
      simp only [subSeq]
      rw [getD_map_range _ _ _ _ hn, hsplit]

/-- Closed witness for `C2_rs_interleave`: the hypotheses hold at `I = 1`
and the all-zero 223-byte frame. -/
theorem C2_rs_interleave_witness :
    0 < 1 ∧ (List.replicate 223 (0 : Nat)).length = 223 * 1
    ∧ ∃ out, rsWork 1 (List.replicate 223 0) = some out
      ∧ out.length = 255 * 1
      ∧ (∀ n < 255, ∀ j < 1, out.getD (n * 1 + j) 0
          = (rsCodewordSpec 1 (List.replicate 223 0) j).getD n 0)
      ∧ (∀ j < 1, (rsParitySpec (subSeq 1 (List.replicate 223 0) j)).length = 32)
      ∧ out.take (223 * 1) = List.replicate 223 0 :=
  ⟨by decide, by rw [List.length_replicate],
    C2_rs_interleave 1 (List.replicate 223 0) (by decide)
      (by rw [List.length_replicate])⟩

/-- C5: code_bug.  A frame holding only the continuation of a previous
packet, with idle emission enabled and nothing queued, is emitted with
FHP = 0x7FE (Only-Idle-Data) even though its data field holds real packet
bytes and no new header (the claim and the block docstring require 0x7FF
here).  The 15-byte packet is 0..14, already sent up to offset 10. -/
theorem C5_fhp_code_bug :
    (buildFrame ⟨0, 0, false, 16, false, 0x55, true⟩
        ⟨0, 0, [], some (List.range 15, 10)⟩).fhp = 0x7FE
    ∧ ((buildFrame ⟨0, 0, false, 16, false, 0x55, true⟩
        ⟨0, 0, [], some (List.range 15, 10)⟩).frame.drop 6).take 5
      = [10, 11, 12, 13, 14]
    ∧ (buildFrame ⟨0, 0, false, 16, false, 0x55, true⟩
        ⟨0, 0, [], some (List.range 15, 10)⟩).hs = []
    ∧ (0x7FE : Nat) ≠ 0x7FF := by
  refine ⟨?_, ?_, ?_, by decide⟩ <;> decide

end CCSDS
